import Mathlib

/-!
# Verification of the HumBobBot regulation/diet pipeline

Shallow embedding of the parts of the repository relevant to claims C1..C10:

* date arithmetic (`datetime.datetime` values are modelled as `Int` numbers of
  days since 1970-01-01; all datetimes in the pipeline are at midnight, so the
  date part is the whole information used in comparisons and arithmetic);
* `utils/date_util.py` (`get_next_monday`, the previous-Monday rollback);
* `domain/diet/diet_service.py` (title date extraction, start-date
  determination, cafeteria resolution, upload processing);
* `constants/cafeteria.py` (alias table and canonical names);
* `domain/diet/diet_crud.py` (`create_diet` upsert);
* `domain/diet/diet_router.py` (`upload_diet` validation flow);
* `RegulationCrawler.py` (the `crawl` upsert loop and the file-conversion
  batch `handle_file_process`).

Network, subprocess and filesystem effects are abstracted as explicit
environment records; everything else is translated from the Python source.
-/

/-! ## Calendar arithmetic

`datetime.date`/`datetime.datetime` is modelled by its proleptic-Gregorian
day number (days since 1970-01-01).  `days_from_civil`/`civil_from_days`
are the standard conversions between (year, month, day) triples and day
numbers (Hinnant's algorithm, the same calendar that `datetime` implements).
-/

def is_leap_year (y : Int) : Bool :=
  (y % 4 = 0 && y % 100 ≠ 0) || y % 400 = 0

def days_in_month (y m : Int) : Int :=
  if m = 1 then 31
  else if m = 2 then (if is_leap_year y then 29 else 28)
  else if m = 3 then 31
  else if m = 4 then 30
  else if m = 5 then 31
  else if m = 6 then 30
  else if m = 7 then 31
  else if m = 8 then 31
  else if m = 9 then 30
  else if m = 10 then 31
  else if m = 11 then 30
  else 31

/-- Day number (days since 1970-01-01) of a civil date.  Only used on
validated dates, whose year is in `[1, 9999]`, so the year of the shifted
calendar below is never negative. -/
def days_from_civil (y m d : Int) : Int :=
  let y' := if m ≤ 2 then y - 1 else y
  let era := y' / 400
  let yoe := y' - era * 400
  let mp := if m > 2 then m - 3 else m + 9
  let doy := (153 * mp + 2) / 5 + d - 1
  let doe := yoe * 365 + yoe / 4 - yoe / 100 + doy
  era * 146097 + doe - 719468

/-- Inverse conversion: day number to (year, month, day).  Used to model
`strftime`. -/
def civil_from_days (z0 : Int) : Int × Int × Int :=
  let z := z0 + 719468
  let era := (if z ≥ 0 then z else z - 146096) / 146097
  let doe := z - era * 146097
  let yoe := (doe - doe / 1460 + doe / 36524 - doe / 146096) / 365
  let y := yoe + era * 400
  let doy := doe - (365 * yoe + yoe / 4 - yoe / 100)
  let mp := (5 * doy + 2) / 153
  let d := doy - (153 * mp + 2) / 5 + 1
  let m := if mp < 10 then mp + 3 else mp - 9
  (if m ≤ 2 then y + 1 else y, m, d)

/-- The validating constructor `datetime.datetime(year, month, day)`:
`some` day number for a valid calendar date, `none` when the constructor
would raise `ValueError` (this is the error the extraction loop catches). -/
def mkDatetime (y m d : Int) : Option Int :=
  if 1 ≤ y ∧ y ≤ 9999 ∧ 1 ≤ m ∧ m ≤ 12 ∧ 1 ≤ d ∧ d ≤ days_in_month y m then
    some (days_from_civil y m d)
  else
    none

/-- `datetime.weekday()`: Monday = 0 .. Sunday = 6.
1970-01-01 (day 0) was a Thursday (= 3). -/
def weekday (d : Int) : Int := (d + 3) % 7

/-! ## `utils/date_util.py` and the previous-Monday rollback -/

/-- `get_next_monday` from `utils/date_util.py`:
`days_until_next_monday = (7 - dt.weekday()) % 7 or 7` (Python `or`: an
integer `0` is falsy, so a Monday input moves a full week forward). -/
def get_next_monday (d : Int) : Int :=
  let days_until_next_monday := (7 - weekday d) % 7
  d + (if days_until_next_monday = 0 then 7 else days_until_next_monday)

/-- One step of the `while dt.weekday() != 0: dt -= timedelta(days=1)` loop,
with explicit fuel (the loop runs at most 6 times since weekdays cycle
with period 7). -/
def lastMondayGo : Nat → Int → Int
  | 0, d => d
  | f + 1, d => if weekday d = 0 then d else lastMondayGo f (d - 1)

/-- Modelled from the spec: `get_last_monday` — "Roll the resulting date
backward to its Monday (if not already Monday) — 'last Monday on-or-before
the extracted date.'"  `domain/diet/diet_service.py` imports a function of
this name from `utils.date_util`, which only ships the identically-coded
`get_previous_monday` (`while dt.weekday() != 0: dt -= timedelta(days=1)`);
`Diet.py` also contains a local `get_last_monday` with the same body.  The
embedding uses that loop body. -/
def get_last_monday (d : Int) : Int := lastMondayGo 7 d

theorem lastMondayGo_spec (f : Nat) (d : Int) (h : ((d + 3) % 7).toNat < f) :
    lastMondayGo f d = d - (d + 3) % 7 := by
  induction f generalizing d with
  | zero => omega
  | succ n ih =>
    simp only [lastMondayGo, weekday]
    split
    · omega
    · rw [ih (d - 1) (by omega)]
      omega

theorem get_last_monday_eq (d : Int) : get_last_monday d = d - (d + 3) % 7 :=
  lastMondayGo_spec 7 d (by omega)

theorem get_last_monday_is_monday (d : Int) : weekday (get_last_monday d) = 0 := by
  rw [get_last_monday_eq]; unfold weekday; omega

theorem get_last_monday_le (d : Int) : get_last_monday d ≤ d := by
  rw [get_last_monday_eq]; omega

theorem get_last_monday_gt (d : Int) : d - get_last_monday d < 7 := by
  rw [get_last_monday_eq]; omega

-- Sanity: 2023-09-11 was a Monday.
example : days_from_civil 2023 9 11 = 19611 := by decide
example : weekday 19611 = 0 := by decide
example : civil_from_days 19611 = (2023, 9, 11) := by decide

/-! ## Character classes and string helpers

Titles are modelled as `List Char`.  `\d` is modelled as the ASCII digits
(the only digits this pipeline's sources contain), `\s`/`int()`-stripping as
the ASCII whitespace characters, and `\w` as ASCII alphanumerics,
underscore, and the Hangul blocks (the only word characters appearing in
the portal's titles). -/

def isDigitC (c : Char) : Bool := c.isDigit

def isWsC (c : Char) : Bool :=
  c = ' ' || c = '\t' || c = '\n' || c = '\r' || c = '\x0b' || c = '\x0c'

def isHangul (c : Char) : Bool :=
  (0x1100 ≤ c.toNat && c.toNat ≤ 0x11FF) ||
  (0x3130 ≤ c.toNat && c.toNat ≤ 0x318F) ||
  (0xAC00 ≤ c.toNat && c.toNat ≤ 0xD7A3)

def isWordC (c : Char) : Bool := c.isAlphanum || c = '_' || isHangul c

theorem digit_not_ws (c : Char) (h : isDigitC c = true) : isWsC c = false := by
  simp only [isWsC, Bool.or_eq_false_iff, decide_eq_false_iff_not]
  refine ⟨⟨⟨⟨⟨?_, ?_⟩, ?_⟩, ?_⟩, ?_⟩, ?_⟩ <;> (intro hc; subst hc; exact absurd h (by decide))

/-- Character-wise effect of the normalisation chain
`.replace(".", "/").replace("-", "/").replace("월", "/").replace("일", "").replace(" ", "")`
from `DietUploadService._extract_date_from_title` (all five replacements act
on single characters, so the chain is a per-character map). -/
def normalizeC (c : Char) : List Char :=
  if c = '.' then ['/']
  else if c = '-' then ['/']
  else if c = '월' then ['/']
  else if c = '일' then []
  else if c = ' ' then []
  else [c]

def normalizeToken (cs : List Char) : List Char := cs.flatMap normalizeC

/-- Python `str.split('/')` (note `"".split('/') == [""]`). -/
def splitSlash : List Char → List (List Char)
  | [] => [[]]
  | c :: rest =>
    match splitSlash rest with
    | [] => if c = '/' then [[], []] else [[c]]  -- unreachable: result is never []
    | g :: gs => if c = '/' then [] :: g :: gs else (c :: g) :: gs

/-- Numeric value of a digit list (most significant first). -/
def digitsVal (ds : List Char) : Int :=
  ds.foldl (fun a c => a * 10 + ((c.toNat : Int) - ('0'.toNat : Int))) 0

/-- Python `int(str)`: strips surrounding whitespace, accepts an optional
sign followed by digits; `none` models the `ValueError` it raises
otherwise.  (Underscore digit-grouping, which `int` also accepts, cannot
occur in this pipeline's inputs and is not modelled.) -/
def toIntPy (cs : List Char) : Option Int :=
  match ((cs.dropWhile isWsC).reverse.dropWhile isWsC).reverse with
  | [] => none
  | c :: ds =>
    if c = '+' then
      if ds ≠ [] ∧ ds.all isDigitC then some (digitsVal ds) else none
    else if c = '-' then
      if ds ≠ [] ∧ ds.all isDigitC then some (-(digitsVal ds)) else none
    else if (c :: ds).all isDigitC then some (digitsVal (c :: ds)) else none

example : toIntPy "12".toList = some 12 := by decide
example : toIntPy "\t3".toList = some 3 := by decide
example : toIntPy "".toList = none := by decide
example : toIntPy "1a".toList = none := by decide

/-- Result of a Python code fragment that can raise an uncaught exception. -/
inductive PyResult (α : Type) where
  | raised : PyResult α
  | val : α → PyResult α
deriving DecidableEq, Repr

/-- The per-token body of the extraction loop of
`DietUploadService._extract_date_from_title` (lines 93-114): year/month/day
selection followed by the guarded `datetime.datetime(year, month, day)`
construction.  `val none` is a skipped token (`continue`, including an
invalid calendar date caught by the `except ValueError`), `raised` an
uncaught `ValueError` from `int()` on a non-numeric part.  The exact
branch structure, including which `int()` calls are retried inside the
outer `except ValueError` arm, follows the source:

* three parts, `int(parts[0])` fails: the `except` arm re-runs
  `int(parts[0])` and raises;
* three parts, plausible year, `int(parts[1])` fails: the `except` arm
  raises at `int(parts[1])`;
* three parts, plausible year, `int(parts[2])` fails: `year` was already
  assigned, the `except` arm sets `month, day = int(parts[0]), int(parts[1])`;
* three parts, implausible year: `month, day = int(parts[0]), int(parts[1])`
  with `year` left at the current year. -/
def parse_date_token (current_year : Int) (cs : List Char) : PyResult (Option Int) :=
  match splitSlash cs with
  | [p0, p1, p2] =>
    match toIntPy p0 with
    | none => .raised
    | some potential_year =>
      if 2000 ≤ potential_year ∧ potential_year ≤ current_year + 5 then
        match toIntPy p1 with
        | none => .raised
        | some m1 =>
          match toIntPy p2 with
          | some d2 => .val (mkDatetime potential_year m1 d2)
          | none => .val (mkDatetime potential_year potential_year m1)
      else
        match toIntPy p1 with
        | none => .raised
        | some m1 => .val (mkDatetime current_year potential_year m1)
  | [p0, p1] =>
    match toIntPy p0, toIntPy p1 with
    | some m, some d => .val (mkDatetime current_year m d)
    | _, _ => .raised
  | _ => .val none

example : parse_date_token 2026 "2024/1/15".toList = .val (mkDatetime 2024 1 15) := by decide
example : parse_date_token 2026 "9/11".toList = .val (mkDatetime 2026 9 11) := by decide
example : parse_date_token 2026 "2/30".toList = .val none := by decide

/-! ## The date regular expression

`DietUploadService._extract_date_from_title` compiles
`"|".join(date_patterns)` and runs `findall`.  Each alternative is a
concatenation of digit atoms (`\d`), literal separators and an optional
whitespace (`\s?`), wrapped in `\b ... \b`; the `\d{1,2}` quantifiers and
the optional groups are expanded into an explicit list of candidate atom
sequences in exactly Python's backtracking preference order (earlier choice
points are more significant; longer/present is preferred).  The scanner
tries alternatives in pattern order at each position, takes the leftmost
match, and resumes after it — `re.findall`'s semantics for a group-free
pattern. -/

inductive RAtom where
  | dig : RAtom
  | lit : Char → RAtom
  | wsp : RAtom
deriving DecidableEq, Repr

open RAtom in
/-- Expansion of `\d{1,2}` (two digits preferred). -/
def q12 : List (List RAtom) := [[dig, dig], [dig]]

open RAtom in
/-- Candidates for `\d{1,2} SEP \d{1,2}`. -/
def cands3 (s : Char) : List (List RAtom) :=
  q12.flatMap fun a => q12.map fun b => a ++ [lit s] ++ b

open RAtom in
/-- Candidates for `\d{4} SEP \d{1,2} SEP \d{1,2}`. -/
def cands_y (s : Char) : List (List RAtom) :=
  q12.flatMap fun a => q12.map fun b =>
    [dig, dig, dig, dig, lit s] ++ a ++ [lit s] ++ b

open RAtom in
/-- Candidates for `(?:20\d{2}/)?\d{1,2}/\d{1,2}` (optional group taken
first). -/
def p1_cands : List (List RAtom) :=
  (cands3 '/').map (fun t => [lit '2', lit '0', dig, dig, lit '/'] ++ t) ++ cands3 '/'

open RAtom in
/-- Candidates for `\d{1,2}월\s?\d{1,2}일`. -/
def p7_cands : List (List RAtom) :=
  q12.flatMap fun a => [[wsp], []].flatMap fun s => q12.map fun b =>
    a ++ [lit '월'] ++ s ++ b ++ [lit '일']

/-- All alternatives of the combined pattern, in source order:
`(?:20\d{2}/)?\d{1,2}/\d{1,2}`, `\d{4}/\d{1,2}/\d{1,2}`, `\d{1,2}/\d{1,2}`,
`\d{1,2}\.\d{1,2}`, `\d{4}-\d{1,2}-\d{1,2}`, `\d{1,2}-\d{1,2}`,
`\d{1,2}월\s?\d{1,2}일`. -/
def all_cands : List (List RAtom) :=
  p1_cands ++ cands_y '/' ++ cands3 '/' ++ cands3 '.' ++
    cands_y '-' ++ cands3 '-' ++ p7_cands

def matchAtoms : List RAtom → List Char → Option (List Char × List Char)
  | [], rest => some ([], rest)
  | .dig :: as, c :: cs =>
    if isDigitC c then (matchAtoms as cs).map (fun p => (c :: p.1, p.2)) else none
  | .lit ch :: as, c :: cs =>
    if c = ch then (matchAtoms as cs).map (fun p => (c :: p.1, p.2)) else none
  | .wsp :: as, c :: cs =>
    if isWsC c then (matchAtoms as cs).map (fun p => (c :: p.1, p.2)) else none
  | _ :: _, [] => none

/-- Trailing `\b`: every alternative ends in a word character (a digit or
`일`), so there is a boundary exactly when the next character is absent or
not a word character. -/
def boundaryAfter : List Char → Bool
  | [] => true
  | c :: _ => !isWordC c

/-- First alternative (in pattern order) matching at this position, with
the trailing word-boundary check. -/
def firstMatch : List (List RAtom) → List Char → Option (List Char × List Char)
  | [], _ => none
  | t :: ts, cs =>
    match matchAtoms t cs with
    | some (m, rest) => if boundaryAfter rest then some (m, rest) else firstMatch ts cs
    | none => firstMatch ts cs

/-- Leading `\b`: every alternative starts with a word character (a digit),
so there is a boundary exactly when the previous character is absent or not
a word character. -/
def boundaryBefore : Option Char → Bool
  | none => true
  | some p => !isWordC p

/-- The `re.findall` scan: walk left to right, at each boundary position
try the alternatives, emit the leftmost match and resume after it.  `fuel`
is an upper bound on the number of steps (each step consumes at least one
character). -/
def scanTokens : Nat → Option Char → List Char → List (List Char)
  | 0, _, _ => []
  | _, _, [] => []
  | f + 1, prev, c :: rest =>
    if boundaryBefore prev then
      match firstMatch all_cands (c :: rest) with
      | some (m, r) => m :: scanTokens f (some (m.getLastD c)) r
      | none => scanTokens f (some c) rest
    else scanTokens f (some c) rest

def regex_findall (cs : List Char) : List (List Char) :=
  scanTokens (cs.length + 1) none cs

example : regex_findall "본사 구내식당 주간식단표(9/11~9/17)".toList =
    ["9/11".toList, "9/17".toList] := by decide
example : regex_findall "노포차량기지 구내식당 주간식단표(2024/1/1~1/7)".toList =
    ["2024/1/1".toList, "1/7".toList] := by decide
example : regex_findall "신평차량사업소 구내식당 주간식단표(1월1일 ~ 1월 7일)".toList =
    ["1월1일".toList, "1월 7일".toList] := by decide
example : regex_findall "★ 광안분소동 구내식당 주간식단표(12.25~12.31)".toList =
    ["12.25".toList, "12.31".toList] := by decide
example : regex_findall "★광안분소동 구내식당 주간식단표".toList = [] := by decide
example : regex_findall "♡ 호포구내식당 주간식단표(9/11~17)".toList =
    ["9/11".toList] := by decide

-- Further matcher cross-checks (all agree with CPython `re` on the source pattern).
example : regex_findall "24/1/1".toList = ["24/1".toList] := by decide
example : regex_findall "205/1/1".toList = ["1/1".toList] := by decide
example : regex_findall "2024/1/1/5".toList = ["2024/1/1".toList] := by decide
example : regex_findall "1/2/3/4".toList = ["1/2".toList, "3/4".toList] := by decide
example : regex_findall "5.6.7".toList = ["5.6".toList] := by decide
example : regex_findall "2024.1.1".toList = ["1.1".toList] := by decide
example : regex_findall "12월 31일부터".toList = [] := by decide
example : regex_findall "00/00/00".toList = ["00/00".toList] := by decide
example : regex_findall "Tel 051-123-4567".toList = [] := by decide
example : regex_findall "표9/11".toList = [] := by decide
example : regex_findall "2024-1-1".toList = ["2024-1-1".toList] := by decide
example : regex_findall "9월15일".toList = ["9월15일".toList] := by decide

/-! ## `DietUploadService._extract_date_from_title` -/

/-- Python `list.sort()` on datetimes, as insertion sort (ascending;
any correct comparison sort denotes the same function). -/
def insertSorted (x : Int) : List Int → List Int
  | [] => [x]
  | y :: ys => if x ≤ y then x :: y :: ys else y :: insertSorted x ys

def pySort : List Int → List Int
  | [] => []
  | x :: xs => insertSorted x (pySort xs)

/-- The extraction loop over normalised tokens: accumulates successfully
constructed datetimes, skips `continue`d tokens, propagates an uncaught
exception. -/
def parseLoop (current_year : Int) : List (List Char) → PyResult (List Int)
  | [] => .val []
  | t :: ts =>
    match parse_date_token current_year t with
    | .raised => .raised
    | .val none => parseLoop current_year ts
    | .val (some d) =>
      match parseLoop current_year ts with
      | .raised => .raised
      | .val ds => .val (d :: ds)

/-- `DietUploadService._extract_date_from_title` (lines 56-120):
`re.findall`, normalisation, the parse loop, then
`get_last_monday(sorted[0])`.  `current_year` stands for
`datetime.datetime.now().year`.  `val none` models returning `None`,
`raised` an uncaught `ValueError`. -/
def extract_date_from_title (current_year : Int) (title : List Char) :
    PyResult (Option Int) :=
  let extracted_dates := (regex_findall title).map normalizeToken
  if extracted_dates.isEmpty then .val none
  else
    match parseLoop current_year extracted_dates with
    | .raised => .raised
    | .val [] => .val none
    | .val (d :: ds) =>
      match pySort (d :: ds) with
      | [] => .val none  -- unreachable: sorting preserves nonemptiness
      | m :: _ => .val (some (get_last_monday m))

/-- The successfully constructed datetime of one normalised token (`none`
both for a skipped token and for one that would raise). -/
def date_of_token (current_year : Int) (t : List Char) : Option Int :=
  match parse_date_token current_year t with
  | .val (some d) => some d
  | _ => none

/-- The chronologically valid parses of a title: the datetimes the loop
accumulates (specification-side companion of `parseLoop`, used to state
C5). -/
def valid_parsed_dates (current_year : Int) (title : List Char) : List Int :=
  ((regex_findall title).map normalizeToken).filterMap (date_of_token current_year)

example : extract_date_from_title 2023 "본사 구내식당 주간식단표(9/11~9/17)".toList =
    .val (some 19611) := by decide
example : extract_date_from_title 2023 "★광안분소동 구내식당 주간식단표".toList =
    .val none := by decide

/-! ## `DietUploadService._determine_start_date` -/

/-- `_determine_start_date`:
`self._extract_date_from_title(post_title) or get_next_monday(parsed_post_create_date)`
(a `datetime` is always truthy, so Python's `or` is exactly the
`None`-fallback). -/
def determine_start_date (current_year : Int) (post_title : List Char)
    (parsed_post_create_date : Int) : PyResult Int :=
  match extract_date_from_title current_year post_title with
  | .raised => .raised
  | .val (some d) => .val d
  | .val none => .val (get_next_monday parsed_post_create_date)

/-! ## `constants/cafeteria.py` and cafeteria resolution

Python dicts iterate in insertion order; the map is embedded as the
association list in its declaration order (all fifteen keys are
distinct). -/

def CAFETERIA_NAME_TO_ID_MAP : List (String × Int) :=
  [("본사", 1), ("HumetroHQ", 1),
   ("노포", 2), ("Nopo", 2),
   ("신평", 3), ("Sinpyeong", 3),
   ("호포", 4), ("Hopo", 4),
   ("광안", 5), ("Gwangan", 5),
   ("대저", 6), ("Daejeo", 6),
   ("경전철", 7), ("LightRail", 7),
   ("안평", 7)]

def CANONICAL_CAFETERIA_NAMES_FOR_FILENAMES : List String :=
  ["본사", "노포", "신평", "호포", "광안", "대저", "경전철"]

/-- Python's substring test `needle in hay`. -/
def strContains (hay needle : String) : Bool :=
  hay.toList.tails.any (fun suf => needle.toList.isPrefixOf suf)

example : strContains "안평 환승센터 공지" "안평" = true := by decide
example : strContains "안평 환승센터 공지" "경전철" = false := by decide

/-- The scan of `DietUploadService._determine_cafeteria_info`: first alias
(in map iteration order) occurring in the title whose ID indexes the
canonical-name list wins; an alias whose ID fails the bounds check is
passed over and the scan continues. -/
def cafeteria_scan (post_title : String) :
    List (String × Int) → Option Int × Option String
  | [] => (none, none)
  | (name_variation, c_id) :: rest =>
    if strContains post_title name_variation then
      if 0 < c_id ∧ c_id ≤ (CANONICAL_CAFETERIA_NAMES_FOR_FILENAMES.length : Int) then
        (some c_id,
         some (CANONICAL_CAFETERIA_NAMES_FOR_FILENAMES.getD ((c_id - 1).toNat) ""))
      else cafeteria_scan post_title rest
    else cafeteria_scan post_title rest

def determine_cafeteria_info (post_title : String) : Option Int × Option String :=
  cafeteria_scan post_title CAFETERIA_NAME_TO_ID_MAP

example : determine_cafeteria_info "경전철운영사업소 구내식당 주간 식단표" =
    (some 7, some "경전철") := by decide
example : determine_cafeteria_info "♡ 호포구내식당 주간식단표" =
    (some 4, some "호포") := by decide

/-! ## `strftime`/`strptime` as used by the upload flow -/

def pad2 (n : Int) : String := if n < 10 then "0" ++ toString n else toString n

/-- `dt.strftime("%y%m%d")`. -/
def strftime_yymmdd (d : Int) : String :=
  match civil_from_days d with
  | (y, m, dd) => pad2 (y % 100) ++ pad2 m ++ pad2 dd

/-- `datetime.datetime.strptime(s, '%y%m%d')` on the six-digit strings the
upload route admits (its `^\d{6}$` gate runs first); `%y` maps 00-68 to
20xx and 69-99 to 19xx; `none` models the `ValueError` raised on a
malformed date (and on the other shapes, unreachable behind the gate). -/
def strptime_yymmdd (s : String) : Option Int :=
  match s.toList with
  | [a, b, c, d, e, f] =>
    if [a, b, c, d, e, f].all isDigitC then
      let yy := digitsVal [a, b]
      let y := if yy ≤ 68 then 2000 + yy else 1900 + yy
      mkDatetime y (digitsVal [c, d]) (digitsVal [e, f])
    else none
  | _ => none

example : strptime_yymmdd "230911" = some 19611 := by decide
example : strftime_yymmdd 19611 = "230911" := by decide
example : strptime_yymmdd "231301" = none := by decide

/-! ## `DietUploadService.process_diet_upload_data` -/

structure ProcessedDietData where
  post_title : String
  post_create_date : Int
  start_date : Int
  cafeteria_id : Int
  cafeteria_name_for_file : String
  img_url : String
  img_path : String
  upload_file_name : String
deriving DecidableEq, Repr, Inhabited

/-- `process_diet_upload_data` (lines 162-213).  `Except.error` carries the
`str(e)` of the `ValueError` the caller catches (the `strptime` and
`int()` messages are paraphrased; the cafeteria message is the source's
literal).  `img_path` is kept relative to the project root (the source
prefixes the absolute base directory computed from `__file__`). -/
def process_diet_upload_data (current_year : Int) (post_title : String)
    (post_create_date_str : String) (upload_file_name : String) :
    Except String ProcessedDietData :=
  match strptime_yymmdd post_create_date_str with
  | none => .error "time data does not match format yymmdd"
  | some parsed_post_create_date =>
    match determine_start_date current_year post_title.toList parsed_post_create_date with
    | .raised => .error "invalid literal for int()"
    | .val start_date =>
      match determine_cafeteria_info post_title with
      | (some cafeteria_id, some cafeteria_name_for_file) =>
        let img_filename := strftime_yymmdd start_date ++ "_" ++ cafeteria_name_for_file ++ ".jpg"
        .ok { post_title := post_title,
              post_create_date := parsed_post_create_date,
              start_date := start_date,
              cafeteria_id := cafeteria_id,
              cafeteria_name_for_file := cafeteria_name_for_file,
              img_url := "image/diet/" ++ img_filename,
              img_path := "assets/image/diet/" ++ img_filename,
              upload_file_name := upload_file_name }
      | _ => .error "Invalid cafeteria name in post title or mapping issue."

/-! ## `models.Diet` and `diet_crud.create_diet` -/

structure Diet where
  id : Nat
  post_title : String
  post_create_date : Int
  start_date : Int
  cafeteria_id : Int
  img_url : String
  img_path : String
deriving DecidableEq, Repr, Inhabited

/-- `create_diet` (diet_crud.py lines 83-122): find the first row with the
same `(cafeteria_id, start_date)` (`filter_by(...).first()`); update its
four mutable fields in place, else append a fresh row (`fresh` is the
surrogate key the store assigns on insert). -/
def create_diet (fresh : Nat) (data : ProcessedDietData) : List Diet → List Diet
  | [] => [{ id := fresh,
             post_title := data.post_title,
             post_create_date := data.post_create_date,
             start_date := data.start_date,
             cafeteria_id := data.cafeteria_id,
             img_url := data.img_url,
             img_path := data.img_path }]
  | db_diet :: rest =>
    if db_diet.cafeteria_id = data.cafeteria_id ∧ db_diet.start_date = data.start_date then
      { db_diet with
        post_title := data.post_title,
        post_create_date := data.post_create_date,
        img_url := data.img_url,
        img_path := data.img_path } :: rest
    else db_diet :: create_diet fresh data rest

/-! ## `diet_router.upload_diet` -/

inductive UploadOutcome where
  | badRequest : String → UploadOutcome
  | created : String → String → Int → UploadOutcome
deriving DecidableEq, Repr

/-- `re.fullmatch(r'^\d{6}$', s)`. -/
def fullmatch_six_digits (s : String) : Bool :=
  s.toList.length = 6 && s.toList.all isDigitC

/-- `upload_diet` (diet_router.py lines 96-159): content-type gate, the
six-digit date gate, the service call (whose `ValueError` becomes a 400),
then `create_diet` and `save_image`.  Returns the HTTP outcome, the diet
table afterwards, and the list of image files written.  `created` carries
the reported `image_url`, `start_date` and `cafeteria_id`. -/
def upload_diet (current_year : Int) (fresh : Nat) (content_type : String)
    (post_title : String) (post_create_date_form_field : String)
    (upload_file_name : String) (db : List Diet) :
    UploadOutcome × List Diet × List String :=
  if !(strContains content_type "image") then
    (.badRequest "Not valid image file", db, [])
  else if !(fullmatch_six_digits post_create_date_form_field) then
    (.badRequest "post_create_date must be in yymmdd format", db, [])
  else
    match process_diet_upload_data current_year post_title
        post_create_date_form_field upload_file_name with
    | .error e => (.badRequest e, db, [])
    | .ok processed_data =>
      (.created processed_data.img_url (strftime_yymmdd processed_data.start_date)
         processed_data.cafeteria_id,
       create_diet fresh processed_data db,
       [processed_data.img_path])

/-! ## `models.Regulation`, `RegulationPost` and the crawl upsert -/

structure Regulation where
  id : Nat
  title : String
  type : String
  create_date : Int
  update_date : Int
  enforce_date : Option Int
  file_url : Option String
  html_url : Option String
deriving DecidableEq, Repr, Inhabited

structure RegulationPost where
  type : String
  title : String
  create_date : Int
  file_url : Option String
  enforce_date : Option Int
  next_link : Option String
deriving DecidableEq, Repr, Inhabited

/-- The upsert decision of `RegulationCrawler.crawl` (lines 341-378):
`query(Regulation).filter_by(title=post.title, type=post.type).first()`,
then insert / update / no-op.  The first-match query and the in-place row
mutation are modelled by one walk down the table.  `fresh` is the
surrogate key the store assigns on insert; `now` is
`datetime.datetime.now()` for the update branch's `update_date` (the
insert branch uses `post.create_date`).  The source guards the update
branch with `post.create_date and regulation.create_date < post.create_date`;
a `datetime` is always truthy, so only the comparison remains. -/
def crawl_upsert (now : Int) (fresh : Nat) (post : RegulationPost) :
    List Regulation → List Regulation
  | [] =>
    [{ id := fresh,
       title := post.title,
       type := post.type,
       create_date := post.create_date,
       update_date := post.create_date,
       enforce_date := post.enforce_date,
       file_url := post.file_url,
       html_url := none }]
  | regulation :: rest =>
    if regulation.title = post.title ∧ regulation.type = post.type then
      (if regulation.create_date < post.create_date then
        { regulation with
          create_date := post.create_date,
          update_date := now,
          enforce_date := post.enforce_date,
          file_url := post.file_url,
          html_url := none } :: rest
      else regulation :: rest)
    else regulation :: crawl_upsert now fresh post rest

/-- Surrogate-key assignment of the store on insert. -/
def next_id (db : List Regulation) : Nat :=
  db.foldl (fun a r => max a r.id) 0 + 1

def crawl_step (now : Int) (db : List Regulation) (post : RegulationPost) :
    List Regulation :=
  crawl_upsert now (next_id db) post db

/-- `RegulationCrawler.crawl` as it acts on the store: the sequence of
upserts over the posts the backward traversal hands the loop, in traversal
order (an unchanged source yields the same sequence on every run; the
fetching itself is outside the store model). -/
def crawl (now : Int) (db : List Regulation) (posts : List RegulationPost) :
    List Regulation :=
  posts.foldl (crawl_step now) db

/-- Whether one upsert writes (insert or update branch, as opposed to the
no-op branch). -/
def upsert_performs_write (post : RegulationPost) (db : List Regulation) : Bool :=
  match db.find? (fun r => r.title == post.title && r.type == post.type) with
  | none => true
  | some regulation => decide (regulation.create_date < post.create_date)

/-- Number of rows written (inserted or updated) over a crawl run. -/
def crawl_writes (now : Int) (db : List Regulation) : List RegulationPost → Nat
  | [] => 0
  | p :: ps =>
    (if upsert_performs_write p db then 1 else 0) +
      crawl_writes now (crawl_step now db p) ps

/-! ## The file-conversion batch (`handle_file_process`)

Network, filesystem, subprocess and commit effects are abstracted as an
environment record; the decision structure, the error-list bookkeeping and
the database writes are translated from the source.  (The source's
`_remove_downloaded_original` only touches the staging filesystem — and
carries a stray indentation around its `try:` — so it has no modelled
effect here.) -/

/-- Python `str.split(sep)` for a one-character separator. -/
def splitChar (sep : Char) : List Char → List (List Char)
  | [] => [[]]
  | c :: rest =>
    match splitChar sep rest with
    | [] => if c = sep then [[], []] else [[c]]  -- unreachable: result is never []
    | g :: gs => if c = sep then [] :: g :: gs else (c :: g) :: gs

/-- One fuel-indexed step of Python `str.replace(pat, repl)` (non-empty
`pat`, non-overlapping, left to right). -/
def replaceGo (pat repl : List Char) : Nat → List Char → List Char
  | _, [] => []
  | 0, cs => cs
  | f + 1, c :: rest =>
    if pat ≠ [] ∧ pat.isPrefixOf (c :: rest) then
      repl ++ replaceGo pat repl f ((c :: rest).drop pat.length)
    else c :: replaceGo pat repl f rest

def pyReplace (s pat repl : String) : String :=
  String.mk (replaceGo pat.toList repl.toList s.toList.length s.toList)

example : pyReplace "a.hwp.hwp" ".hwp" "" = "a" := by decide

def pyLower (s : String) : String := String.mk (s.toList.map Char.toLower)

/-- `os.path.basename`. -/
def basename (p : String) : String :=
  String.mk ((splitChar '/' p.toList).getLastD [])

/-- `config.DOWNLOAD_DIR` / `config.REGULATION_HTML_DIR` (kept relative to
the project base directory). -/
def DOWNLOAD_DIR : String := "miscs"

def REGULATION_HTML_DIR : String := "assets/html/_regulation"

/-- `_generate_download_filename`: `[{type}]{sanitized_title}_{%Y-%m-%d}.{ext}`
with spaces and slashes in the title replaced by underscores. -/
def sanitizeChar (c : Char) : Char :=
  if c = ' ' ∨ c = '/' ∨ c = '\\' then '_' else c

def strftime_Ymd (d : Int) : String :=
  match civil_from_days d with
  | (y, m, dd) => toString y ++ "-" ++ pad2 m ++ "-" ++ pad2 dd

def generate_download_filename (regulation : Regulation) (file_ext : String) : String :=
  "[" ++ regulation.type ++ "]" ++
    String.mk (regulation.title.toList.map sanitizeChar) ++ "_" ++
    strftime_Ymd regulation.create_date ++ "." ++ file_ext

/-- The `f"{regulation.title} (ID: {regulation.id})"` prefix every
error-list entry starts with (also the needle of the de-duplication
scans). -/
def reg_err_tag (regulation : Regulation) : String :=
  regulation.title ++ " (ID: " ++ toString regulation.id ++ ")"

/-- Outcome of `requests.get` + file write in `_download_regulation_file`
(the three `except` arms of the source). -/
inductive DownloadOutcome where
  | ok : DownloadOutcome
  | httpError : Nat → DownloadOutcome
  | requestError : DownloadOutcome
  | ioError : DownloadOutcome
deriving DecidableEq, Repr

/-- Outcome of a `subprocess.run` of an external converter. -/
inductive ProcOutcome where
  | completed : Int → String → ProcOutcome  -- return code, stderr
  | notFound : ProcOutcome                  -- FileNotFoundError
  | timedOut : ProcOutcome                  -- subprocess.TimeoutExpired
  | unexpected : ProcOutcome                -- any other exception
deriving DecidableEq, Repr

/-- External world of the conversion batch: dependency availability flags
(set in `_check_dependencies`), the download / filesystem / subprocess /
commit oracles, the wall clock, and `_get_file_extension_from_url`
(a pure wrapper over `urlparse`/`parse_qs`, abstracted with the rest of
the standard library). -/
structure FileEnv where
  hwp5html_available : Bool
  docker_available : Bool
  download : Nat → DownloadOutcome
  file_exists : String → Bool
  run_hwp5html : String → String → ProcOutcome
  run_pdf2htmlex : String → String → ProcOutcome
  db_commit_ok : Nat → Bool
  now : Int
  ext_from_url : String → String

/-- `_download_regulation_file` (lines 408-465): returns the staged path on
success, `none` plus the matching error entry on failure. -/
def download_regulation_file (env : FileEnv) (regulation : Regulation)
    (error_list : List String) : Option String × List String :=
  match regulation.file_url with
  | none => (none, error_list)
  | some file_url =>
    let file_ext := env.ext_from_url file_url
    let downloaded_filename := generate_download_filename regulation file_ext
    let full_download_path := DOWNLOAD_DIR ++ "/" ++ downloaded_filename
    match env.download regulation.id with
    | .ok => (some full_download_path, error_list)
    | .httpError status =>
      (none, error_list ++
        [reg_err_tag regulation ++ " - HTTP download error: " ++ toString status])
    | .requestError =>
      (none, error_list ++ [reg_err_tag regulation ++ " - Download request error"])
    | .ioError =>
      (none, error_list ++ [reg_err_tag regulation ++ " - File save error"])

/-- `_convert_file_to_html_format` (lines 467-631): dispatch on the
extension, gate on the availability flags, run the converter, and return
the artifact path relative to `REGULATION_HTML_DIR` (hwp5html's entry
point is its fixed `index.html`; pdf2htmlEX's is `<basename>.html`). -/
def convert_file_to_html_format (env : FileEnv) (regulation : Regulation)
    (downloaded_file_path downloaded_filename : String)
    (error_list : List String) : Option String × List String :=
  let file_ext := pyLower (String.mk ((splitChar '.' downloaded_filename.toList).getLastD []))
  let html_output_dirname := pyReplace downloaded_filename ("." ++ file_ext) ""
  let absolute_html_output_path := REGULATION_HTML_DIR ++ "/" ++ html_output_dirname
  if file_ext = "hwp" then
    if !env.hwp5html_available then
      (none, error_list ++ [reg_err_tag regulation ++ " - Skipped: hwp5html unavailable"])
    else
      match env.run_hwp5html absolute_html_output_path downloaded_file_path with
      | .completed rc _ =>
        if rc ≠ 0 then
          (none, error_list ++
            [reg_err_tag regulation ++ " - HWP conversion error (RC: " ++ toString rc ++ ")"])
        else (some (html_output_dirname ++ "/" ++ "index.html"), error_list)
      | .notFound =>
        (none, error_list ++ [reg_err_tag regulation ++ " - hwp5html not found"])
      | .timedOut =>
        (none, error_list ++ [reg_err_tag regulation ++ " - HWP conversion timeout"])
      | .unexpected =>
        (none, error_list ++ [reg_err_tag regulation ++ " - HWP unexpected error"])
  else if file_ext = "pdf" then
    if !env.docker_available then
      (none, error_list ++ [reg_err_tag regulation ++ " - Skipped: Docker unavailable"])
    else
      match env.run_pdf2htmlex downloaded_filename absolute_html_output_path with
      | .completed rc stderr =>
        if rc ≠ 0 then
          if strContains stderr "docker: command not found" ||
              strContains stderr "Is the docker daemon running?" then
            (none, error_list ++ [reg_err_tag regulation ++ " - Docker command/daemon error"])
          else
            (none, error_list ++
              [reg_err_tag regulation ++ " - PDF conversion error (RC: " ++ toString rc ++ ")"])
        else
          (some (html_output_dirname ++ "/" ++
             pyReplace downloaded_filename ("." ++ file_ext) ".html"), error_list)
      | .notFound =>
        (none, error_list ++ [reg_err_tag regulation ++ " - Docker command not found"])
      | .timedOut =>
        (none, error_list ++ [reg_err_tag regulation ++ " - PDF conversion timeout"])
      | .unexpected =>
        (none, error_list ++ [reg_err_tag regulation ++ " - PDF unexpected error"])
  else
    (none, error_list ++
      [reg_err_tag regulation ++ " - Unsupported file type: " ++ file_ext])

/-- `_update_db_html_url` (lines 633-655): set `html_url` and refresh
`update_date`, or roll back and record a DB error. -/
def update_db_html_url (env : FileEnv) (regulation : Regulation)
    (html_file_rel_path : String) (db : List Regulation)
    (error_list : List String) : List Regulation × List String :=
  if env.db_commit_ok regulation.id then
    (db.map fun x =>
      if x.id = regulation.id then
        { x with html_url := some html_file_rel_path, update_date := env.now }
      else x,
     error_list)
  else
    (db, error_list ++ [reg_err_tag regulation ++ " - DB update error for html_url"])

/-- `_process_single_regulation_file` (lines 678-741): download, existence
check (with the de-duplicated "Download failed/file missing" entry),
convert, update the database.  The conditional removal of the staged
original only touches the staging filesystem. -/
def process_single_regulation_file (env : FileEnv) (regulation : Regulation)
    (db : List Regulation) (error_list : List String) :
    List Regulation × List String :=
  match regulation.file_url with
  | none =>
    (db, error_list ++ [reg_err_tag regulation ++ " - No file_url for processing"])
  | some _ =>
    match download_regulation_file env regulation error_list with
    | (none, errs1) =>
      if !errs1.any (fun err => strContains err (reg_err_tag regulation)) then
        (db, errs1 ++ [reg_err_tag regulation ++ " - Download failed/file missing"])
      else (db, errs1)
    | (some downloaded_file_path, errs1) =>
      if !env.file_exists downloaded_file_path then
        (if !errs1.any (fun err => strContains err (reg_err_tag regulation)) then
          (db, errs1 ++ [reg_err_tag regulation ++ " - Download failed/file missing"])
        else (db, errs1))
      else
        let actual_downloaded_filename := basename downloaded_file_path
        match convert_file_to_html_format env regulation downloaded_file_path
            actual_downloaded_filename errs1 with
        | (none, errs2) => (db, errs2)
        | (some relative_html_path, errs2) =>
          update_db_html_url env regulation relative_html_path db errs2

/-- The per-target loop of `handle_file_process` (lines 761-770). -/
def file_process_loop (env : FileEnv) :
    List Regulation → List Regulation × List String → List Regulation × List String
  | [], st => st
  | regulation :: rest, (db, error_list) =>
    if regulation.file_url.isNone then
      file_process_loop env rest
        (db, error_list ++ [reg_err_tag regulation ++ " - Skipped: No file_url"])
    else
      file_process_loop env rest
        (process_single_regulation_file env regulation db error_list)

/-- `handle_file_process` (lines 743-781): reset the error list, select the
regulations with `html_url IS NULL`, and run the per-item loop.  Returns
the table and the batch error list. -/
def handle_file_process (env : FileEnv) (db : List Regulation) :
    List Regulation × List String :=
  file_process_loop env (db.filter fun r => r.html_url.isNone) (db, [])

/-! ## Helper lemmas: the upsert's three-way outcome -/

theorem find?_decomp {α : Type} (p : α → Bool) (l : List α) (r : α)
    (h : l.find? p = some r) :
    ∃ pre suf, l = pre ++ r :: suf ∧ (∀ x ∈ pre, p x = false) ∧ p r = true := by
  induction l with
  | nil => simp [List.find?] at h
  | cons a t ih =>
    rw [List.find?_cons] at h
    cases hp : p a with
    | true =>
      rw [hp] at h
      refine ⟨[], t, ?_, ?_, ?_⟩ <;> simp_all
    | false =>
      rw [hp] at h
      obtain ⟨pre, suf, hl, hpre, hr⟩ := ih h
      exact ⟨a :: pre, suf, by simp [hl], by
        intro x hx
        rcases List.mem_cons.mp hx with h1 | h1
        · subst h1; exact hp
        · exact hpre x h1, hr⟩

/-- The row the update branch of `crawl` produces. -/
def updated_regulation (now : Int) (post : RegulationPost) (r : Regulation) : Regulation :=
  { r with
    create_date := post.create_date,
    update_date := now,
    enforce_date := post.enforce_date,
    file_url := post.file_url,
    html_url := none }

theorem crawl_upsert_found (now : Int) (fresh : Nat) (post : RegulationPost)
    (pre suf : List Regulation) (r : Regulation)
    (hpre : ∀ x ∈ pre, ¬(x.title = post.title ∧ x.type = post.type))
    (hkey : r.title = post.title ∧ r.type = post.type) :
    crawl_upsert now fresh post (pre ++ r :: suf) =
      pre ++ (if r.create_date < post.create_date then
                updated_regulation now post r
              else r) :: suf := by
  induction pre with
  | nil =>
    simp only [List.nil_append, crawl_upsert, if_pos hkey]
    split <;> rfl
  | cons x xs ih =>
    have hx : ¬(x.title = post.title ∧ x.type = post.type) := hpre x (by simp)
    simp only [List.cons_append, crawl_upsert, if_neg hx, List.append_eq]
    rw [ih (fun y hy => hpre y (by simp [hy]))]

theorem crawl_upsert_noop (now : Int) (fresh : Nat) (post : RegulationPost)
    (pre suf : List Regulation) (r : Regulation)
    (hpre : ∀ x ∈ pre, ¬(x.title = post.title ∧ x.type = post.type))
    (hkey : r.title = post.title ∧ r.type = post.type)
    (hle : post.create_date ≤ r.create_date) :
    crawl_upsert now fresh post (pre ++ r :: suf) = pre ++ r :: suf := by
  rw [crawl_upsert_found now fresh post pre suf r hpre hkey, if_neg (by omega)]

theorem key_pred_iff (post : RegulationPost) (x : Regulation) :
    (x.title == post.title && x.type == post.type) = true ↔
      x.title = post.title ∧ x.type = post.type := by
  simp [Bool.and_eq_true, beq_iff_eq]

/-- C1.  The stored row the query finds (first `(title, type)` match) with
`post.create_date ≤ create_date`: the upsert leaves the whole table — in
particular that row and the table's length — unchanged. -/
theorem spec_C1_non_regression (now : Int) (fresh : Nat) (post : RegulationPost)
    (db : List Regulation) (r : Regulation)
    (hfind : db.find? (fun x => x.title == post.title && x.type == post.type) = some r)
    (hle : post.create_date ≤ r.create_date) :
    crawl_upsert now fresh post db = db := by
  obtain ⟨pre, suf, hdb, hpre, hr⟩ := find?_decomp _ db r hfind
  subst hdb
  exact crawl_upsert_noop now fresh post pre suf r
    (fun x hx => by
      have hfx := hpre x hx
      intro hc
      rw [(key_pred_iff post x).mpr hc] at hfx
      exact absurd hfx (by simp))
    ((key_pred_iff post r).mp hr) hle

theorem spec_C1_non_regression_witness :
    crawl_upsert 20000 2
      { type := "규정", title := "취업규정", create_date := 19600,
        file_url := some "u2", enforce_date := none, next_link := none }
      [{ id := 1, title := "취업규정", type := "규정", create_date := 19611,
         update_date := 19611, enforce_date := none, file_url := some "u1",
         html_url := some "h1" }] =
      [{ id := 1, title := "취업규정", type := "규정", create_date := 19611,
         update_date := 19611, enforce_date := none, file_url := some "u1",
         html_url := some "h1" }] :=
  spec_C1_non_regression 20000 2
    { type := "규정", title := "취업규정", create_date := 19600,
      file_url := some "u2", enforce_date := none, next_link := none }
    [{ id := 1, title := "취업규정", type := "규정", create_date := 19611,
       update_date := 19611, enforce_date := none, file_url := some "u1",
       html_url := some "h1" }]
    { id := 1, title := "취업규정", type := "규정", create_date := 19611,
      update_date := 19611, enforce_date := none, file_url := some "u1",
      html_url := some "h1" }
    (by decide) (by decide)

/-- C3.  When the query finds a row (first `(title, type)` match, with no
earlier match in the table) and the post is strictly newer, the upsert
rewrites exactly that row: `create_date`, `enforce_date`, `file_url` come
from the post, `update_date` becomes the current time, `html_url` is reset
to `None`, and every other row (and the row's own `id`, `title`, `type`)
is untouched. -/
theorem spec_C3_update_resets_html (now : Int) (fresh : Nat) (post : RegulationPost)
    (pre suf : List Regulation) (r : Regulation)
    (hpre : ∀ x ∈ pre, ¬(x.title = post.title ∧ x.type = post.type))
    (hkey : r.title = post.title ∧ r.type = post.type)
    (hlt : r.create_date < post.create_date) :
    crawl_upsert now fresh post (pre ++ r :: suf) =
      pre ++ { r with
               create_date := post.create_date,
               update_date := now,
               enforce_date := post.enforce_date,
               file_url := post.file_url,
               html_url := none } :: suf := by
  rw [crawl_upsert_found now fresh post pre suf r hpre hkey, if_pos hlt]
  rfl

theorem spec_C3_update_resets_html_witness :
    crawl_upsert 20000 2
      { type := "규정", title := "취업규정", create_date := 19700,
        file_url := some "u2", enforce_date := some 19710, next_link := none }
      [{ id := 1, title := "취업규정", type := "규정", create_date := 19611,
         update_date := 19611, enforce_date := none, file_url := some "u1",
         html_url := some "h1" }] =
      [{ id := 1, title := "취업규정", type := "규정", create_date := 19700,
         update_date := 20000, enforce_date := some 19710, file_url := some "u2",
         html_url := none }] := by
  have h := spec_C3_update_resets_html 20000 2
    { type := "규정", title := "취업규정", create_date := 19700,
      file_url := some "u2", enforce_date := some 19710, next_link := none }
    [] []
    { id := 1, title := "취업규정", type := "규정", create_date := 19611,
      update_date := 19611, enforce_date := none, file_url := some "u1",
      html_url := some "h1" }
    (by simp) (by exact ⟨rfl, rfl⟩) (by decide)
  simpa using h

/-! ## C10: the `create_diet` upsert -/

theorem create_diet_found (fresh : Nat) (data : ProcessedDietData)
    (pre suf : List Diet) (r : Diet)
    (hpre : ∀ x ∈ pre, ¬(x.cafeteria_id = data.cafeteria_id ∧ x.start_date = data.start_date))
    (hkey : r.cafeteria_id = data.cafeteria_id ∧ r.start_date = data.start_date) :
    create_diet fresh data (pre ++ r :: suf) =
      pre ++ { r with
               post_title := data.post_title,
               post_create_date := data.post_create_date,
               img_url := data.img_url,
               img_path := data.img_path } :: suf := by
  induction pre with
  | nil => simp [create_diet, hkey]
  | cons x xs ih =>
    have hx : ¬(x.cafeteria_id = data.cafeteria_id ∧ x.start_date = data.start_date) :=
      hpre x (by simp)
    simp only [List.cons_append, create_diet, if_neg hx, List.append_eq]
    rw [ih (fun y hy => hpre y (by simp [hy]))]

theorem create_diet_absent (fresh : Nat) (data : ProcessedDietData)
    (db : List Diet)
    (h : ∀ x ∈ db, ¬(x.cafeteria_id = data.cafeteria_id ∧ x.start_date = data.start_date)) :
    create_diet fresh data db = db ++
      [{ id := fresh,
         post_title := data.post_title,
         post_create_date := data.post_create_date,
         start_date := data.start_date,
         cafeteria_id := data.cafeteria_id,
         img_url := data.img_url,
         img_path := data.img_path }] := by
  induction db with
  | nil => rfl
  | cons x xs ih =>
    have hx := h x (by simp)
    simp only [create_diet, if_neg hx, List.cons_append]
    rw [ih (fun y hy => h y (by simp [hy]))]

/-- "At most one Diet row per `(cafeteria_id, start_date)`". -/
def diet_key_unique (db : List Diet) : Prop :=
  db.Pairwise fun a b => ¬(a.cafeteria_id = b.cafeteria_id ∧ a.start_date = b.start_date)

/-- C10.  `create_diet` on a table already holding the `(cafeteria_id,
start_date)` key (first match `r`, no earlier match): only `r`'s
`post_title`, `post_create_date`, `img_url`, `img_path` change — its `id`,
`cafeteria_id`, `start_date` and every other row survive, and no row is
added.  And for every table and call, the at-most-one-row-per-key
invariant is preserved. -/
theorem spec_C10_create_diet_upsert :
    (∀ (fresh : Nat) (data : ProcessedDietData) (pre suf : List Diet) (r : Diet),
      (∀ x ∈ pre, ¬(x.cafeteria_id = data.cafeteria_id ∧ x.start_date = data.start_date)) →
      r.cafeteria_id = data.cafeteria_id ∧ r.start_date = data.start_date →
      create_diet fresh data (pre ++ r :: suf) =
        pre ++ { r with
                 post_title := data.post_title,
                 post_create_date := data.post_create_date,
                 img_url := data.img_url,
                 img_path := data.img_path } :: suf ∧
      (create_diet fresh data (pre ++ r :: suf)).length = (pre ++ r :: suf).length) ∧
    (∀ (fresh : Nat) (data : ProcessedDietData) (db : List Diet),
      diet_key_unique db → diet_key_unique (create_diet fresh data db)) := by
  constructor
  · intro fresh data pre suf r hpre hkey
    refine ⟨create_diet_found fresh data pre suf r hpre hkey, ?_⟩
    rw [create_diet_found fresh data pre suf r hpre hkey]
    simp
  · intro fresh data db hu
    by_cases hall : ∀ x ∈ db, ¬(x.cafeteria_id = data.cafeteria_id ∧ x.start_date = data.start_date)
    · rw [create_diet_absent fresh data db hall]
      unfold diet_key_unique at hu ⊢
      rw [List.pairwise_append]
      refine ⟨hu, by simp, ?_⟩
      intro a ha b hb
      simp only [List.mem_singleton] at hb
      subst hb
      have := hall a ha
      simp only [not_and] at this ⊢
      intro hc hs
      exact this (by simp [hc]) (by simp [hs])
    · push_neg at hall
      obtain ⟨x0, hx0, hkey0⟩ := hall
      -- decompose at the first match
      obtain ⟨r, hfind⟩ : ∃ r, db.find? (fun x =>
          x.cafeteria_id == data.cafeteria_id && x.start_date == data.start_date) = some r := by
        have : (db.find? (fun x =>
            x.cafeteria_id == data.cafeteria_id && x.start_date == data.start_date)).isSome := by
          rw [List.find?_isSome]
          exact ⟨x0, hx0, by simp [hkey0.1, hkey0.2]⟩
        exact Option.isSome_iff_exists.mp this
      obtain ⟨pre, suf, hdb, hpre, hr⟩ := find?_decomp _ db r hfind
      subst hdb
      have hpre' : ∀ x ∈ pre, ¬(x.cafeteria_id = data.cafeteria_id ∧ x.start_date = data.start_date) := by
        intro x hx hc
        have := hpre x hx
        rw [hc.1, hc.2] at this
        simp at this
      have hkey' : r.cafeteria_id = data.cafeteria_id ∧ r.start_date = data.start_date := by
        simpa [Bool.and_eq_true, beq_iff_eq] using hr
      rw [create_diet_found fresh data pre suf r hpre' hkey']
      unfold diet_key_unique at hu ⊢
      rw [List.pairwise_append] at hu ⊢
      obtain ⟨h1, h2, h3⟩ := hu
      refine ⟨h1, ?_, ?_⟩
      · rw [List.pairwise_cons] at h2 ⊢
        refine ⟨?_, h2.2⟩
        intro b hb hc
        exact h2.1 b hb ⟨by simpa [hkey'.1] using hc.1, by simpa [hkey'.2] using hc.2⟩
      · intro a ha b hb
        rcases List.mem_cons.mp hb with h4 | h4
        · subst h4
          intro hc
          exact h3 a ha r (by simp) ⟨by simpa [hkey'.1] using hc.1, by simpa [hkey'.2] using hc.2⟩
        · exact h3 a ha b (by simp [h4])

theorem spec_C10_create_diet_upsert_witness :
    create_diet 9
      { post_title := "본사 주간식단표", post_create_date := 19610,
        start_date := 19611, cafeteria_id := 1, cafeteria_name_for_file := "본사",
        img_url := "image/diet/230911_본사.jpg",
        img_path := "assets/image/diet/230911_본사.jpg",
        upload_file_name := "f.jpg" }
      ([] ++ { id := 4, post_title := "old", post_create_date := 19000,
               start_date := 19611, cafeteria_id := 1, img_url := "old_u",
               img_path := "old_p" } ::
        [{ id := 5, post_title := "other", post_create_date := 19000,
           start_date := 19611, cafeteria_id := 2, img_url := "o2",
           img_path := "p2" }]) =
      [] ++ { id := 4, post_title := "본사 주간식단표", post_create_date := 19610,
              start_date := 19611, cafeteria_id := 1,
              img_url := "image/diet/230911_본사.jpg",
              img_path := "assets/image/diet/230911_본사.jpg" } ::
        [{ id := 5, post_title := "other", post_create_date := 19000,
           start_date := 19611, cafeteria_id := 2, img_url := "o2",
           img_path := "p2" }] :=
  (spec_C10_create_diet_upsert.1 9
    { post_title := "본사 주간식단표", post_create_date := 19610,
      start_date := 19611, cafeteria_id := 1, cafeteria_name_for_file := "본사",
      img_url := "image/diet/230911_본사.jpg",
      img_path := "assets/image/diet/230911_본사.jpg",
      upload_file_name := "f.jpg" }
    []
    [{ id := 5, post_title := "other", post_create_date := 19000,
       start_date := 19611, cafeteria_id := 2, img_url := "o2",
       img_path := "p2" }]
    { id := 4, post_title := "old", post_create_date := 19000,
      start_date := 19611, cafeteria_id := 1, img_url := "old_u",
      img_path := "old_p" }
    (by simp) (by exact ⟨rfl, rfl⟩)).1

/-! ## C7: cafeteria alias resolution order -/

theorem cafeteria_scan_first (title : String) (l : List (String × Int)) :
    ∀ (i : Nat), i < l.length →
    (∀ p ∈ l, 0 < p.2 ∧ p.2 ≤ (CANONICAL_CAFETERIA_NAMES_FOR_FILENAMES.length : Int)) →
    strContains title (l.getD i ("", 0)).1 = true →
    (∀ j, j < i → strContains title (l.getD j ("", 0)).1 = false) →
    cafeteria_scan title l =
      (some (l.getD i ("", 0)).2,
       some (CANONICAL_CAFETERIA_NAMES_FOR_FILENAMES.getD
         (((l.getD i ("", 0)).2 - 1).toNat) "")) := by
  induction l with
  | nil => intro i hi; simp at hi
  | cons p rest ih =>
    intro i hi hvalid hc hj
    match i with
    | 0 =>
      simp only [List.getD_cons_zero] at hc ⊢
      have hv := hvalid p (by simp)
      simp only [cafeteria_scan, hc, if_true, if_pos hv]
    | i + 1 =>
      have h0 : strContains title p.1 = false := by
        have := hj 0 (by omega)
        simpa using this
      simp only [List.getD_cons_succ] at hc ⊢
      simp only [cafeteria_scan, h0, Bool.false_eq_true, if_false]
      exact ih i (by simpa using hi) (fun q hq => hvalid q (by simp [hq])) hc
        (fun j hjlt => by simpa using hj (j + 1) (by omega))

/-- C7.  The alias table is scanned in declaration order and the first
alias occurring as a substring wins, yielding its ID and the canonical
name at index ID−1; consequently a title containing "안평" but none of the
fourteen earlier-declared aliases resolves to ID 7 with canonical name
"경전철" — the same ID as the alias "경전철". -/
theorem spec_C7_alias_resolution :
    (∀ (title : String) (i : Nat), i < CAFETERIA_NAME_TO_ID_MAP.length →
      strContains title (CAFETERIA_NAME_TO_ID_MAP.getD i ("", 0)).1 = true →
      (∀ j, j < i → strContains title (CAFETERIA_NAME_TO_ID_MAP.getD j ("", 0)).1 = false) →
      determine_cafeteria_info title =
        (some (CAFETERIA_NAME_TO_ID_MAP.getD i ("", 0)).2,
         some (CANONICAL_CAFETERIA_NAMES_FOR_FILENAMES.getD
           (((CAFETERIA_NAME_TO_ID_MAP.getD i ("", 0)).2 - 1).toNat) ""))) ∧
    (∀ title : String,
      strContains title "안평" = true →
      (∀ j, j < 14 → strContains title (CAFETERIA_NAME_TO_ID_MAP.getD j ("", 0)).1 = false) →
      determine_cafeteria_info title = (some 7, some "경전철")) ∧
    (CAFETERIA_NAME_TO_ID_MAP.getD 14 ("", 0) = ("안평", 7) ∧
     CAFETERIA_NAME_TO_ID_MAP.getD 12 ("", 0) = ("경전철", 7)) := by
  have hgen : ∀ (title : String) (i : Nat), i < CAFETERIA_NAME_TO_ID_MAP.length →
      strContains title (CAFETERIA_NAME_TO_ID_MAP.getD i ("", 0)).1 = true →
      (∀ j, j < i → strContains title (CAFETERIA_NAME_TO_ID_MAP.getD j ("", 0)).1 = false) →
      determine_cafeteria_info title =
        (some (CAFETERIA_NAME_TO_ID_MAP.getD i ("", 0)).2,
         some (CANONICAL_CAFETERIA_NAMES_FOR_FILENAMES.getD
           (((CAFETERIA_NAME_TO_ID_MAP.getD i ("", 0)).2 - 1).toNat) "")) := by
    intro title i hi hc hj
    exact cafeteria_scan_first title CAFETERIA_NAME_TO_ID_MAP i hi (by decide) hc hj
  refine ⟨hgen, ?_, by decide⟩
  intro title hc hj
  have := hgen title 14 (by decide) (by simpa using hc) hj
  simpa using this

theorem spec_C7_alias_resolution_witness :
    determine_cafeteria_info "안평 환승센터 공지" = (some 7, some "경전철") :=
  spec_C7_alias_resolution.2.1 "안평 환승센터 공지" (by decide) (by decide)

/-! ## C6: fallback to the next Monday after the creation date -/

/-- C6.  When the title yields no date, `_determine_start_date` falls back
to `get_next_monday(post_create_date)`: the result is a Monday, lies 1 to
7 days strictly after the creation date, and is exactly creation date + 7
when the creation date itself is a Monday. -/
theorem spec_C6_no_date_fallback (current_year : Int) (title : List Char)
    (parsed_post_create_date : Int)
    (h : extract_date_from_title current_year title = .val none) :
    determine_start_date current_year title parsed_post_create_date =
      .val (get_next_monday parsed_post_create_date) ∧
    weekday (get_next_monday parsed_post_create_date) = 0 ∧
    1 ≤ get_next_monday parsed_post_create_date - parsed_post_create_date ∧
    get_next_monday parsed_post_create_date - parsed_post_create_date ≤ 7 ∧
    (weekday parsed_post_create_date = 0 →
      get_next_monday parsed_post_create_date = parsed_post_create_date + 7) := by
  refine ⟨by simp only [determine_start_date, h], ?_, ?_, ?_, ?_⟩ <;>
    (simp only [get_next_monday, weekday]; split <;> omega)

theorem spec_C6_no_date_fallback_witness :
    determine_start_date 2023 "★광안분소동 구내식당 주간식단표".toList 19611 =
      .val (get_next_monday 19611) ∧ get_next_monday 19611 = 19611 + 7 := by
  have h := spec_C6_no_date_fallback 2023 "★광안분소동 구내식당 주간식단표".toList 19611
    (by decide)
  exact ⟨h.1, h.2.2.2.2 (by decide)⟩

/-! ## C4: explicit-year handling in the token parse -/

/-- C4.  For a matched date string with three components whose first
component is a plausible year (`2000 ≤ y ≤ current_year + 5`), that year is
used for the constructed date; with an implausible first component, or
with only two components, the year handed to the `datetime` constructor is
the current year instead. -/
theorem spec_C4_year_inference :
    (∀ (current_year : Int) (cs p0 p1 p2 : List Char) (y m d : Int),
      splitSlash cs = [p0, p1, p2] →
      toIntPy p0 = some y → toIntPy p1 = some m → toIntPy p2 = some d →
      2000 ≤ y ∧ y ≤ current_year + 5 →
      parse_date_token current_year cs = .val (mkDatetime y m d)) ∧
    (∀ (current_year : Int) (cs p0 p1 p2 : List Char) (y m : Int),
      splitSlash cs = [p0, p1, p2] →
      toIntPy p0 = some y → toIntPy p1 = some m →
      ¬(2000 ≤ y ∧ y ≤ current_year + 5) →
      parse_date_token current_year cs = .val (mkDatetime current_year y m)) ∧
    (∀ (current_year : Int) (cs p0 p1 : List Char) (m d : Int),
      splitSlash cs = [p0, p1] →
      toIntPy p0 = some m → toIntPy p1 = some d →
      parse_date_token current_year cs = .val (mkDatetime current_year m d)) := by
  refine ⟨?_, ?_, ?_⟩
  · intro cy cs p0 p1 p2 y m d hs h0 h1 h2 hy
    simp only [parse_date_token, hs, h0, h1, h2, if_pos hy]
  · intro cy cs p0 p1 p2 y m hs h0 h1 hy
    simp only [parse_date_token, hs, h0, h1, if_neg hy]
  · intro cy cs p0 p1 m d hs h0 h1
    simp only [parse_date_token, hs, h0, h1]

theorem spec_C4_year_inference_witness :
    parse_date_token 2026 "2024/1/15".toList = .val (mkDatetime 2024 1 15) ∧
    parse_date_token 2026 "2099/1/15".toList = .val (mkDatetime 2026 2099 1) ∧
    parse_date_token 2026 "9/11".toList = .val (mkDatetime 2026 9 11) :=
  ⟨spec_C4_year_inference.1 2026 "2024/1/15".toList "2024".toList "1".toList "15".toList
      2024 1 15 (by decide) (by decide) (by decide) (by decide) (by decide),
   spec_C4_year_inference.2.1 2026 "2099/1/15".toList "2099".toList "1".toList "15".toList
      2099 1 (by decide) (by decide) (by decide) (by decide),
   spec_C4_year_inference.2.2 2026 "9/11".toList "9".toList "11".toList
      9 11 (by decide) (by decide) (by decide)⟩

/-! ## C9: upload validation rejects without partial writes -/

/-- C9.  An upload whose creation-date string is not exactly six digits,
or whose title resolves to no cafeteria, ends in a 400 `badRequest`; the
diet table is returned unchanged and no image file is written. -/
theorem spec_C9_upload_validation (current_year : Int) (fresh : Nat)
    (content_type post_title post_create_date_form_field upload_file_name : String)
    (db : List Diet)
    (h : fullmatch_six_digits post_create_date_form_field = false ∨
         determine_cafeteria_info post_title = (none, none)) :
    ∃ detail, upload_diet current_year fresh content_type post_title
        post_create_date_form_field upload_file_name db =
      (.badRequest detail, db, []) := by
  by_cases hct : strContains content_type "image" = true
  · by_cases hsix : fullmatch_six_digits post_create_date_form_field = true
    · rcases h with h | h
      · rw [hsix] at h; cases h
      · refine ⟨?_, ?_⟩
        case _ =>
          exact match strptime_yymmdd post_create_date_form_field with
          | none => "time data does not match format yymmdd"
          | some parsed =>
            match determine_start_date current_year post_title.toList parsed with
            | .raised => "invalid literal for int()"
            | .val _ => "Invalid cafeteria name in post title or mapping issue."
        simp only [upload_diet, hct, hsix, Bool.not_true, Bool.false_eq_true, if_false]
        rcases hstrp : strptime_yymmdd post_create_date_form_field with _ | parsed
        · simp only [process_diet_upload_data, hstrp]
        · rcases hdet : determine_start_date current_year post_title.toList parsed with _ | sd
          · simp only [process_diet_upload_data, hstrp, hdet]
          · simp only [process_diet_upload_data, hstrp, hdet, h]
    · refine ⟨"post_create_date must be in yymmdd format", ?_⟩
      simp only [upload_diet, hct, Bool.not_true, Bool.false_eq_true, if_false]
      rw [Bool.not_eq_true] at hsix
      simp only [hsix, Bool.not_false, if_true]
  · refine ⟨"Not valid image file", ?_⟩
    rw [Bool.not_eq_true] at hct
    simp only [upload_diet, hct, Bool.not_false, if_true]

theorem spec_C9_upload_validation_witness :
    (∃ detail, upload_diet 2023 1 "image/jpeg" "본사 구내식당 주간식단표(9/11~9/17)"
        "23091" "f.jpg" [] = (.badRequest detail, [], [])) ∧
    (∃ detail, upload_diet 2023 1 "image/jpeg" "어딘가 구내식당 주간식단표(9/11~9/17)"
        "230911" "f.jpg" [] = (.badRequest detail, [], [])) :=
  ⟨spec_C9_upload_validation 2023 1 "image/jpeg" "본사 구내식당 주간식단표(9/11~9/17)"
      "23091" "f.jpg" [] (.inl (by decide)),
   spec_C9_upload_validation 2023 1 "image/jpeg" "어딘가 구내식당 주간식단표(9/11~9/17)"
      "230911" "f.jpg" [] (.inr (by decide))⟩

/-! ## C8: conversion batch partial failure -/

/-- Three pending regulations for the batch scenario (all with a staged
HWP attachment and `html_url IS NULL`). -/
def c8_reg (i : Nat) (t : String) : Regulation :=
  { id := i, title := t, type := "규정", create_date := 19611,
    update_date := 19611, enforce_date := none,
    file_url := some "/file/down.do?file_name_origin=r.hwp", html_url := none }

/-- Environment in which every oracle succeeds except the download of the
regulation with id 2, which fails with an HTTP 404. -/
def c8_env : FileEnv :=
  { hwp5html_available := true,
    docker_available := true,
    download := fun i => if i = 2 then .httpError 404 else .ok,
    file_exists := fun _ => true,
    run_hwp5html := fun _ _ => .completed 0 "",
    run_pdf2htmlex := fun _ _ => .completed 0 "",
    db_commit_ok := fun _ => true,
    now := 20000,
    ext_from_url := fun _ => "hwp" }

/-- C8.  In a batch over 3 pending regulations where item 2's download
fails, items 1 and 3 still end with `html_url ≠ None` (item 2 stays
`None`), the loop reaches every item, and the batch error list holds
exactly one entry, referencing item 2. -/
theorem spec_C8_partial_failure :
    (handle_file_process c8_env
        [c8_reg 1 "규정A", c8_reg 2 "규정B", c8_reg 3 "규정C"]).1.map
        (fun r => (r.id, r.html_url.isSome)) = [(1, true), (2, false), (3, true)] ∧
    (handle_file_process c8_env
        [c8_reg 1 "규정A", c8_reg 2 "규정B", c8_reg 3 "규정C"]).2.length = 1 ∧
    strContains
      ((handle_file_process c8_env
        [c8_reg 1 "규정A", c8_reg 2 "규정B", c8_reg 3 "규정C"]).2.getD 0 "")
      (reg_err_tag (c8_reg 2 "규정B")) = true := by
  decide

/-! ## C2: idempotence of the crawl -/

theorem keyB_updated (q p : RegulationPost) (now : Int) (x : Regulation) :
    ((updated_regulation now p x).title == q.title &&
      (updated_regulation now p x).type == q.type) =
    (x.title == q.title && x.type == q.type) := rfl

/-- After one upsert of `post`, the table holds a first `(title, type)`
match for `post` at least as new as the post. -/
theorem crawl_upsert_bound (now : Int) (fresh : Nat) (post : RegulationPost) :
    ∀ db : List Regulation,
    ∃ r, (crawl_upsert now fresh post db).find?
        (fun x => x.title == post.title && x.type == post.type) = some r ∧
      post.create_date ≤ r.create_date
  | [] => by
    refine ⟨{ id := fresh, title := post.title, type := post.type,
              create_date := post.create_date, update_date := post.create_date,
              enforce_date := post.enforce_date, file_url := post.file_url,
              html_url := none }, ?_, le_refl _⟩
    simp [crawl_upsert, List.find?]
  | x :: rest => by
    by_cases hk : x.title = post.title ∧ x.type = post.type
    · simp only [crawl_upsert, if_pos hk]
      by_cases hlt : x.create_date < post.create_date
      · rw [if_pos hlt]
        refine ⟨updated_regulation now post x, ?_, by simp [updated_regulation]⟩
        rw [List.find?_cons]
        have : ((updated_regulation now post x).title == post.title &&
            (updated_regulation now post x).type == post.type) = true := by
          rw [keyB_updated]
          simp [hk.1, hk.2]
        simp only [updated_regulation] at this
        rw [this]
        rfl
      · rw [if_neg hlt]
        refine ⟨x, ?_, by omega⟩
        rw [List.find?_cons]
        have : (x.title == post.title && x.type == post.type) = true := by
          simp [hk.1, hk.2]
        rw [this]
    · simp only [crawl_upsert, if_neg hk]
      obtain ⟨r, hfind, hle⟩ := crawl_upsert_bound now fresh post rest
      refine ⟨r, ?_, hle⟩
      rw [List.find?_cons]
      have : (x.title == post.title && x.type == post.type) = false := by
        rw [Bool.and_eq_false_iff]
        by_cases h1 : x.title = post.title
        · right
          refine beq_eq_false_iff_ne.mpr ?_
          intro h2
          exact hk ⟨h1, h2⟩
        · left
          exact beq_eq_false_iff_ne.mpr h1
      rw [this]
      exact hfind

/-- One upsert (of any post `p`) preserves "the first `(title, type)` match
for `q` is at least as new as `c`". -/
theorem crawl_upsert_preserves_bound (now : Int) (fresh : Nat)
    (p q : RegulationPost) (c : Int) :
    ∀ (db : List Regulation) (r : Regulation),
    db.find? (fun x => x.title == q.title && x.type == q.type) = some r →
    c ≤ r.create_date →
    ∃ r', (crawl_upsert now fresh p db).find?
        (fun x => x.title == q.title && x.type == q.type) = some r' ∧
      c ≤ r'.create_date
  | [], r => by intro h; simp [List.find?] at h
  | x :: rest, r => by
    intro hfind hc
    rw [List.find?_cons] at hfind
    by_cases hkp : x.title = p.title ∧ x.type = p.type
    · simp only [crawl_upsert, if_pos hkp]
      cases hkq : (x.title == q.title && x.type == q.type) with
      | true =>
        rw [hkq] at hfind
        have hrx : r = x := by cases hfind; rfl
        subst hrx
        by_cases hlt : r.create_date < p.create_date
        · rw [if_pos hlt]
          refine ⟨updated_regulation now p r, ?_, ?_⟩
          · rw [List.find?_cons]
            have h2 : ((updated_regulation now p r).title == q.title &&
                (updated_regulation now p r).type == q.type) = true := by
              rw [keyB_updated]; exact hkq
            simp only [updated_regulation] at h2 ⊢
            rw [h2]
          · simp only [updated_regulation]
            omega
        · rw [if_neg hlt]
          refine ⟨r, ?_, hc⟩
          rw [List.find?_cons, hkq]
      | false =>
        rw [hkq] at hfind
        by_cases hlt : x.create_date < p.create_date
        · rw [if_pos hlt]
          refine ⟨r, ?_, hc⟩
          rw [List.find?_cons]
          have h2 : ((updated_regulation now p x).title == q.title &&
              (updated_regulation now p x).type == q.type) = false := by
            rw [keyB_updated]; exact hkq
          simp only [updated_regulation] at h2 ⊢
          rw [h2]
          exact hfind
        · rw [if_neg hlt]
          refine ⟨r, ?_, hc⟩
          rw [List.find?_cons, hkq]
          exact hfind
    · simp only [crawl_upsert, if_neg hkp]
      cases hkq : (x.title == q.title && x.type == q.type) with
      | true =>
        rw [hkq] at hfind
        have hrx : r = x := by cases hfind; rfl
        subst hrx
        refine ⟨r, ?_, hc⟩
        rw [List.find?_cons, hkq]
      | false =>
        rw [hkq] at hfind
        obtain ⟨r', h1, h2⟩ :=
          crawl_upsert_preserves_bound now fresh p q c rest r hfind hc
        refine ⟨r', ?_, h2⟩
        rw [List.find?_cons, hkq]
        exact h1

/-- find?-phrased form of the no-op branch. -/
theorem crawl_upsert_noop_find (now : Int) (fresh : Nat) (post : RegulationPost)
    (db : List Regulation) (r : Regulation)
    (hfind : db.find? (fun x => x.title == post.title && x.type == post.type) = some r)
    (hle : post.create_date ≤ r.create_date) :
    crawl_upsert now fresh post db = db := by
  obtain ⟨pre, suf, hdb, hpre, hr⟩ := find?_decomp _ db r hfind
  subst hdb
  exact crawl_upsert_noop now fresh post pre suf r
    (fun x hx => by
      have hfx := hpre x hx
      intro hc
      rw [(key_pred_iff post x).mpr hc] at hfx
      exact absurd hfx (by simp))
    ((key_pred_iff post r).mp hr) hle

/-- A whole crawl run preserves "the first `(title, type)` match for `q` is
at least as new as `c`". -/
theorem crawl_preserves_bound (now : Int) (q : RegulationPost) (c : Int) :
    ∀ (posts : List RegulationPost) (db : List Regulation) (r : Regulation),
    db.find? (fun x => x.title == q.title && x.type == q.type) = some r →
    c ≤ r.create_date →
    ∃ r', (crawl now db posts).find?
        (fun x => x.title == q.title && x.type == q.type) = some r' ∧
      c ≤ r'.create_date
  | [], _, r => fun h1 h2 => ⟨r, h1, h2⟩
  | p :: ps, db, r => fun h1 h2 => by
    obtain ⟨r', h1', h2'⟩ :=
      crawl_upsert_preserves_bound now (next_id db) p q c db r h1 h2
    exact crawl_preserves_bound now q c ps (crawl_step now db p) r' h1' h2'

/-- After one crawl run, every post of the run has a stored first match at
least as new as the post. -/
theorem crawl_establishes_bound (now : Int) :
    ∀ (posts : List RegulationPost) (db : List Regulation) (p : RegulationPost),
    p ∈ posts →
    ∃ r, (crawl now db posts).find?
        (fun x => x.title == p.title && x.type == p.type) = some r ∧
      p.create_date ≤ r.create_date
  | [], _, p => by intro h; cases h
  | q :: ps, db, p => fun hmem => by
    rcases List.mem_cons.mp hmem with h | h
    · subst h
      obtain ⟨r, h1, h2⟩ := crawl_upsert_bound now (next_id db) p db
      exact crawl_preserves_bound now p p.create_date ps (crawl_step now db p) r h1 h2
    · exact crawl_establishes_bound now ps (crawl_step now db q) p h

/-- A crawl over posts that are all already superseded in the table is a
no-op with zero writes. -/
theorem crawl_noop_of_bounds (now : Int) :
    ∀ (posts : List RegulationPost) (db : List Regulation),
    (∀ p ∈ posts, ∃ r, db.find?
        (fun x => x.title == p.title && x.type == p.type) = some r ∧
        p.create_date ≤ r.create_date) →
    crawl now db posts = db ∧ crawl_writes now db posts = 0
  | [], _ => fun _ => ⟨rfl, rfl⟩
  | p :: ps, db => fun h => by
    obtain ⟨r, h1, h2⟩ := h p (by simp)
    have hstep : crawl_step now db p = db :=
      crawl_upsert_noop_find now (next_id db) p db r h1 h2
    have hw : upsert_performs_write p db = false := by
      simp only [upsert_performs_write, h1, decide_eq_false_iff_not]
      omega
    have ih := crawl_noop_of_bounds now ps db (fun q hq => h q (by simp [hq]))
    constructor
    · show crawl now (crawl_step now db p) ps = db
      rw [hstep]
      exact ih.1
    · show (if upsert_performs_write p db then 1 else 0) +
        crawl_writes now (crawl_step now db p) ps = 0
      rw [hw, hstep]
      simpa using ih.2

/-- C2.  Running the crawl twice over the same post sequence: the second
run performs zero writes (every upsert takes the no-op branch) and leaves
the table exactly as the first run left it. -/
theorem spec_C2_idempotent (now1 now2 : Int) (db : List Regulation)
    (posts : List RegulationPost) :
    crawl now2 (crawl now1 db posts) posts = crawl now1 db posts ∧
    crawl_writes now2 (crawl now1 db posts) posts = 0 :=
  crawl_noop_of_bounds now2 posts (crawl now1 db posts)
    (fun p hp => crawl_establishes_bound now1 posts db p hp)

/-! ## C5 machinery: what the matcher can emit

Every string `re.findall` emits realizes one of the finitely many candidate
atom sequences; after normalisation its `'/'`-split parts are all strings
`int()` accepts.  This is the unreachability proof for the `ValueError`
arms of the parse loop. -/

theorem digit_ne_plus (c : Char) (h : isDigitC c = true) : ¬(c = '+') := by
  intro hc; subst hc; exact absurd h (by decide)

theorem digit_ne_minus (c : Char) (h : isDigitC c = true) : ¬(c = '-') := by
  intro hc; subst hc; exact absurd h (by decide)

theorem digit_ne_slash (c : Char) (h : isDigitC c = true) : ¬(c = '/') := by
  intro hc; subst hc; exact absurd h (by decide)

theorem ws_ne_slash (c : Char) (h : isWsC c = true) : ¬(c = '/') := by
  intro hc; subst hc; exact absurd h (by decide)

theorem normalizeC_digit (c : Char) (h : isDigitC c = true) : normalizeC c = [c] := by
  have h1 : ¬(c = '.') := by intro hc; subst hc; exact absurd h (by decide)
  have h2 : ¬(c = '-') := digit_ne_minus c h
  have h3 : ¬(c = '월') := by intro hc; subst hc; exact absurd h (by decide)
  have h4 : ¬(c = '일') := by intro hc; subst hc; exact absurd h (by decide)
  have h5 : ¬(c = ' ') := by intro hc; subst hc; exact absurd h (by decide)
  simp [normalizeC, h1, h2, h3, h4, h5]

theorem normalizeC_ws (c : Char) (h : isWsC c = true) :
    normalizeC c = if c = ' ' then [] else [c] := by
  have h1 : ¬(c = '.') := by intro hc; subst hc; exact absurd h (by decide)
  have h2 : ¬(c = '-') := by intro hc; subst hc; exact absurd h (by decide)
  have h3 : ¬(c = '월') := by intro hc; subst hc; exact absurd h (by decide)
  have h4 : ¬(c = '일') := by intro hc; subst hc; exact absurd h (by decide)
  by_cases h5 : c = ' '
  · simp [normalizeC, h1, h2, h3, h4, h5]
  · simp [normalizeC, h1, h2, h3, h4, h5]

/-- Pointwise characterisation of the characters a matched atom sequence
consumed. -/
def fitsAB : List RAtom → List Char → Bool
  | [], [] => true
  | .dig :: as, c :: cs => isDigitC c && fitsAB as cs
  | .lit ch :: as, c :: cs => (c = ch) && fitsAB as cs
  | .wsp :: as, c :: cs => isWsC c && fitsAB as cs
  | _, _ => false

theorem matchAtoms_fits : ∀ (as : List RAtom) (cs m r : List Char),
    matchAtoms as cs = some (m, r) → fitsAB as m = true
  | [], cs, m, r => by
    intro h
    simp only [matchAtoms, Option.some_inj, Prod.mk.injEq] at h
    rw [← h.1]
    rfl
  | .dig :: as, [], m, r => by intro h; simp [matchAtoms] at h
  | .dig :: as, c :: cs, m, r => by
    intro h
    simp only [matchAtoms] at h
    by_cases hc : isDigitC c = true
    · rw [if_pos hc] at h
      rcases hm : matchAtoms as cs with _ | ⟨m', r'⟩
      · rw [hm] at h; simp at h
      · rw [hm] at h
        simp only [Option.map_some', Option.some_inj, Prod.mk.injEq] at h
        rw [← h.1]
        simp only [fitsAB, hc, Bool.true_and]
        exact matchAtoms_fits as cs m' r' hm
    · rw [if_neg hc] at h
      simp at h
  | .lit ch :: as, [], m, r => by intro h; simp [matchAtoms] at h
  | .lit ch :: as, c :: cs, m, r => by
    intro h
    simp only [matchAtoms] at h
    by_cases hc : c = ch
    · rw [if_pos hc] at h
      rcases hm : matchAtoms as cs with _ | ⟨m', r'⟩
      · rw [hm] at h; simp at h
      · rw [hm] at h
        simp only [Option.map_some', Option.some_inj, Prod.mk.injEq] at h
        rw [← h.1]
        have hrec : fitsAB as m' = true := matchAtoms_fits as cs m' r' hm
        simp [fitsAB, hc, hrec]
    · rw [if_neg hc] at h
      simp at h
  | .wsp :: as, [], m, r => by intro h; simp [matchAtoms] at h
  | .wsp :: as, c :: cs, m, r => by
    intro h
    simp only [matchAtoms] at h
    by_cases hc : isWsC c = true
    · rw [if_pos hc] at h
      rcases hm : matchAtoms as cs with _ | ⟨m', r'⟩
      · rw [hm] at h; simp at h
      · rw [hm] at h
        simp only [Option.map_some', Option.some_inj, Prod.mk.injEq] at h
        rw [← h.1]
        simp only [fitsAB, hc, Bool.true_and]
        exact matchAtoms_fits as cs m' r' hm
    · rw [if_neg hc] at h
      simp at h

def isSepChar (c : Char) : Bool := c = '/' || c = '.' || c = '-' || c = '월'

/-- Atoms occurring in the candidate set: digits, whitespace, separator
literals, `일`, and digit literals (`2`, `0`). -/
def atomOkB : RAtom → Bool
  | .dig => true
  | .wsp => true
  | .lit c => isSepChar c || c = '일' || isDigitC c

def isSepAtom : RAtom → Bool
  | .lit c => isSepChar c
  | _ => false

/-- Symbolic image of `splitSlash ∘ normalizeToken` on an atom sequence. -/
def symbParts : List RAtom → List (List RAtom)
  | [] => [[]]
  | a :: as =>
    match symbParts as with
    | [] => [[a]]  -- unreachable: result is never []
    | g :: gs => if isSepAtom a then [] :: g :: gs else (a :: g) :: gs

/-- A normalised part realizes its symbolic atom group: digits stay, `일`
vanishes, a whitespace stays or vanishes (a plain space is removed). -/
def groupFitB : List RAtom → List Char → Bool
  | [], [] => true
  | [], _ :: _ => false
  | .dig :: g, p =>
    match p with
    | c :: p' => isDigitC c && groupFitB g p'
    | [] => false
  | .lit ch :: g, p =>
    if ch = '일' then groupFitB g p
    else
      match p with
      | c :: p' => (c = ch && isDigitC c) && groupFitB g p'
      | [] => false
  | .wsp :: g, p =>
    groupFitB g p ||
      (match p with
       | c :: p' => (isWsC c && !(c = ' ')) && groupFitB g p'
       | [] => false)

theorem splitSlash_ne_nil : ∀ cs, splitSlash cs ≠ []
  | [] => by simp [splitSlash]
  | c :: rest => by
    have := splitSlash_ne_nil rest
    rcases h : splitSlash rest with _ | ⟨g, gs⟩
    · exact absurd h this
    · simp only [splitSlash, h]
      split <;> simp

theorem symbParts_ne_nil : ∀ as, symbParts as ≠ []
  | [] => by simp [symbParts]
  | a :: as => by
    have := symbParts_ne_nil as
    rcases h : symbParts as with _ | ⟨g, gs⟩
    · exact absurd h this
    · simp only [symbParts, h]
      split <;> simp

theorem normalizeToken_cons (c : Char) (m : List Char) :
    normalizeToken (c :: m) = normalizeC c ++ normalizeToken m := by
  simp [normalizeToken]

theorem normalizeC_sep (c : Char) (h : isSepChar c = true) : normalizeC c = ['/'] := by
  simp only [isSepChar, Bool.or_eq_true, decide_eq_true_eq] at h
  rcases h with ((h | h) | h) | h <;> subst h <;> rfl

theorem splitSlash_slash (n : List Char) :
    ∃ g gs, splitSlash n = g :: gs ∧ splitSlash ('/' :: n) = [] :: g :: gs := by
  rcases h : splitSlash n with _ | ⟨g, gs⟩
  · exact absurd h (splitSlash_ne_nil n)
  · exact ⟨g, gs, rfl, by simp [splitSlash, h]⟩

theorem splitSlash_nonslash (c : Char) (hc : ¬(c = '/')) (n : List Char) :
    ∃ g gs, splitSlash n = g :: gs ∧ splitSlash (c :: n) = (c :: g) :: gs := by
  rcases h : splitSlash n with _ | ⟨g, gs⟩
  · exact absurd h (splitSlash_ne_nil n)
  · exact ⟨g, gs, rfl, by simp [splitSlash, h, hc]⟩

theorem fits_symbParts : ∀ (as : List RAtom) (m : List Char),
    as.all atomOkB = true → fitsAB as m = true →
    List.Forall₂ (fun g p => groupFitB g p = true)
      (symbParts as) (splitSlash (normalizeToken m))
  | [], m, _, hfit => by
    cases m with
    | nil => exact List.Forall₂.cons rfl List.Forall₂.nil
    | cons c m' => simp [fitsAB] at hfit
  | .dig :: as, m, hok, hfit => by
    cases m with
    | nil => simp [fitsAB] at hfit
    | cons c m' =>
      simp only [fitsAB, Bool.and_eq_true] at hfit
      obtain ⟨hc, hfit'⟩ := hfit
      have hok' : as.all atomOkB = true := by
        simp only [List.all_cons, Bool.and_eq_true] at hok
        exact hok.2
      have ih := fits_symbParts as m' hok' hfit'
      rw [normalizeToken_cons, normalizeC_digit c hc, List.cons_append, List.nil_append]
      obtain ⟨g, gs, hsp, hsp2⟩ :=
        splitSlash_nonslash c (digit_ne_slash c hc) (normalizeToken m')
      rcases hsy : symbParts as with _ | ⟨G, Gs⟩
      · exact absurd hsy (symbParts_ne_nil as)
      · rw [hsy, hsp] at ih
        cases ih with
        | cons hhead htail =>
          rw [hsp2]
          simp only [symbParts, hsy, isSepAtom, Bool.false_eq_true, if_false]
          exact List.Forall₂.cons (by simp [groupFitB, hc, hhead]) htail
  | .wsp :: as, m, hok, hfit => by
    cases m with
    | nil => simp [fitsAB] at hfit
    | cons c m' =>
      simp only [fitsAB, Bool.and_eq_true] at hfit
      obtain ⟨hc, hfit'⟩ := hfit
      have hok' : as.all atomOkB = true := by
        simp only [List.all_cons, Bool.and_eq_true] at hok
        exact hok.2
      have ih := fits_symbParts as m' hok' hfit'
      rw [normalizeToken_cons, normalizeC_ws c hc]
      rcases hsy : symbParts as with _ | ⟨G, Gs⟩
      · exact absurd hsy (symbParts_ne_nil as)
      · by_cases hspc : c = ' '
        · rw [if_pos hspc, List.nil_append]
          rcases hss : splitSlash (normalizeToken m') with _ | ⟨g, gs⟩
          · exact absurd hss (splitSlash_ne_nil _)
          · rw [hsy, hss] at ih
            cases ih with
            | cons hhead htail =>
              simp only [symbParts, hsy, isSepAtom, Bool.false_eq_true, if_false]
              refine List.Forall₂.cons ?_ htail
              simp only [groupFitB, hhead, Bool.true_or]
        · rw [if_neg hspc, List.cons_append, List.nil_append]
          obtain ⟨g, gs, hss, hss2⟩ :=
            splitSlash_nonslash c (ws_ne_slash c hc) (normalizeToken m')
          rw [hsy, hss] at ih
          cases ih with
          | cons hhead htail =>
            rw [hss2]
            simp only [symbParts, hsy, isSepAtom, Bool.false_eq_true, if_false]
            refine List.Forall₂.cons ?_ htail
            have hgoal : (isWsC c && !decide (c = ' ') && groupFitB G g) = true := by
              rw [hc, hhead]
              simp [hspc]
            simp only [groupFitB]
            rw [hgoal, Bool.or_true]
  | .lit ch :: as, m, hok, hfit => by
    cases m with
    | nil => simp [fitsAB] at hfit
    | cons c m' =>
      simp only [fitsAB, Bool.and_eq_true, decide_eq_true_eq] at hfit
      obtain ⟨hc, hfit'⟩ := hfit
      subst hc
      have hok1 : atomOkB (.lit c) = true := by
        simp only [List.all_cons, Bool.and_eq_true] at hok
        exact hok.1
      have hok' : as.all atomOkB = true := by
        simp only [List.all_cons, Bool.and_eq_true] at hok
        exact hok.2
      have ih := fits_symbParts as m' hok' hfit'
      rcases hsy : symbParts as with _ | ⟨G, Gs⟩
      · exact absurd hsy (symbParts_ne_nil as)
      · simp only [atomOkB, Bool.or_eq_true, decide_eq_true_eq] at hok1
        rcases hok1 with (hsep | hil) | hdig
        · -- separator literal: contributes '/'
          rw [normalizeToken_cons, normalizeC_sep c hsep, List.cons_append, List.nil_append]
          obtain ⟨g, gs, hss, hss2⟩ := splitSlash_slash (normalizeToken m')
          rw [hsy, hss] at ih
          cases ih with
          | cons hhead htail =>
            rw [hss2]
            simp only [symbParts, hsy, isSepAtom, hsep, if_true]
            exact List.Forall₂.cons rfl (List.Forall₂.cons hhead htail)
        · -- the '일' literal: vanishes
          subst hil
          rw [normalizeToken_cons]
          rw [show normalizeC '일' = [] from rfl, List.nil_append]
          rcases hss : splitSlash (normalizeToken m') with _ | ⟨g, gs⟩
          · exact absurd hss (splitSlash_ne_nil _)
          · rw [hsy, hss] at ih
            cases ih with
            | cons hhead htail =>
              have hnsep : isSepAtom (RAtom.lit '일') = false := by decide
              simp only [symbParts, hsy, hnsep, Bool.false_eq_true, if_false]
              refine List.Forall₂.cons ?_ htail
              simp only [groupFitB, if_pos rfl]
              exact hhead
        · -- digit literal ('2' or '0')
          rw [normalizeToken_cons, normalizeC_digit c hdig, List.cons_append, List.nil_append]
          obtain ⟨g, gs, hss, hss2⟩ :=
            splitSlash_nonslash c (digit_ne_slash c hdig) (normalizeToken m')
          rw [hsy, hss] at ih
          cases ih with
          | cons hhead htail =>
            rw [hss2]
            have hnsep : isSepAtom (RAtom.lit c) = false := by
              simp only [isSepAtom, isSepChar]
              have h1 : ¬(c = '/') := digit_ne_slash c hdig
              have h2 : ¬(c = '.') := by
                intro hcc; subst hcc; exact absurd hdig (by decide)
              have h3 : ¬(c = '-') := digit_ne_minus c hdig
              have h4 : ¬(c = '월') := by
                intro hcc; subst hcc; exact absurd hdig (by decide)
              simp [h1, h2, h3, h4]
            simp only [symbParts, hsy, hnsep, Bool.false_eq_true, if_false]
            refine List.Forall₂.cons ?_ htail
            have hil' : ¬(c = '일') := by
              intro hcc; subst hcc; exact absurd hdig (by decide)
            simp only [groupFitB, if_neg hil']
            simp [hdig, hhead]

def isDigAtomB : RAtom → Bool
  | .dig => true
  | .lit c => isDigitC c
  | .wsp => false

/-- Symbolic goodness of an atom group: apart from vanishing `일`s, it is
optional whitespace followed by at least one digit atom. -/
def groupGoodB (g : List RAtom) : Bool :=
  !((g.filter fun a => !(a = RAtom.lit '일')).dropWhile fun a => a = RAtom.wsp).isEmpty &&
  ((g.filter fun a => !(a = RAtom.lit '일')).dropWhile fun a => a = RAtom.wsp).all isDigAtomB

theorem groupFit_digits : ∀ (g : List RAtom) (p : List Char),
    groupFitB g p = true →
    (g.filter fun a => !(a = RAtom.lit '일')).all isDigAtomB = true →
    p.all isDigitC = true
  | [], p, hfit, _ => by
    cases p with
    | nil => rfl
    | cons c p' => simp [groupFitB] at hfit
  | .dig :: g', p, hfit, hall => by
    cases p with
    | nil => simp [groupFitB] at hfit
    | cons c p' =>
      simp only [groupFitB, Bool.and_eq_true] at hfit
      have hall' : (g'.filter fun a => !(a = RAtom.lit '일')).all isDigAtomB = true := by
        simp only [List.filter_cons] at hall
        simp only [show (!decide (RAtom.dig = RAtom.lit '일')) = true by decide,
          if_true, List.all_cons, Bool.and_eq_true] at hall
        exact hall.2
      simp only [List.all_cons, Bool.and_eq_true]
      exact ⟨hfit.1, groupFit_digits g' p' hfit.2 hall'⟩
  | .lit ch :: g', p, hfit, hall => by
    by_cases hil : ch = '일'
    · subst hil
      simp only [groupFitB, if_pos rfl] at hfit
      have hall' : (g'.filter fun a => !(a = RAtom.lit '일')).all isDigAtomB = true := by
        simpa [List.filter_cons] using hall
      exact groupFit_digits g' p hfit hall'
    · simp only [groupFitB, if_neg hil] at hfit
      cases p with
      | nil => simp at hfit
      | cons c p' =>
        simp only [Bool.and_eq_true, decide_eq_true_eq] at hfit
        obtain ⟨⟨hceq, hcd⟩, hfit'⟩ := hfit
        have hall' : (g'.filter fun a => !(a = RAtom.lit '일')).all isDigAtomB = true := by
          simp only [List.filter_cons,
            show (!decide (RAtom.lit ch = RAtom.lit '일')) = true by
              simp [hil], if_true, List.all_cons, Bool.and_eq_true] at hall
          exact hall.2
        simp only [List.all_cons, Bool.and_eq_true]
        exact ⟨hcd, groupFit_digits g' p' hfit' hall'⟩
  | .wsp :: g', p, hfit, hall => by
    exfalso
    simp only [List.filter_cons,
      show (!decide (RAtom.wsp = RAtom.lit '일')) = true by decide, if_true,
      List.all_cons, Bool.and_eq_true] at hall
    exact absurd hall.1 (by simp [isDigAtomB])

theorem groupFit_shape : ∀ (g : List RAtom) (p : List Char),
    groupFitB g p = true → groupGoodB g = true →
    ∃ w d, p = w ++ d ∧ w.all isWsC = true ∧ d ≠ [] ∧ d.all isDigitC = true
  | [], p, _, hgood => by
    exfalso
    simp [groupGoodB] at hgood
  | .dig :: g', p, hfit, hgood => by
    cases p with
    | nil => simp [groupFitB] at hfit
    | cons c p' =>
      simp only [groupFitB, Bool.and_eq_true] at hfit
      have hall' : (g'.filter fun a => !(a = RAtom.lit '일')).all isDigAtomB = true := by
        simp only [groupGoodB, List.filter_cons,
          show (!decide (RAtom.dig = RAtom.lit '일')) = true by decide, if_true,
          List.dropWhile_cons,
          show (decide (RAtom.dig = RAtom.wsp)) = false by decide,
          Bool.false_eq_true, if_false, Bool.and_eq_true, List.all_cons] at hgood
        exact hgood.2.2
      refine ⟨[], c :: p', rfl, rfl, by simp, ?_⟩
      simp only [List.all_cons, Bool.and_eq_true]
      exact ⟨hfit.1, groupFit_digits g' p' hfit.2 hall'⟩
  | .lit ch :: g', p, hfit, hgood => by
    by_cases hil : ch = '일'
    · subst hil
      simp only [groupFitB, if_pos rfl] at hfit
      have hgood' : groupGoodB g' = true := by
        simpa [groupGoodB, List.filter_cons] using hgood
      exact groupFit_shape g' p hfit hgood'
    · simp only [groupFitB, if_neg hil] at hfit
      cases p with
      | nil => simp at hfit
      | cons c p' =>
        simp only [Bool.and_eq_true, decide_eq_true_eq] at hfit
        obtain ⟨⟨hceq, hcd⟩, hfit'⟩ := hfit
        have hall' : (g'.filter fun a => !(a = RAtom.lit '일')).all isDigAtomB = true := by
          simp only [groupGoodB, List.filter_cons,
            show (!decide (RAtom.lit ch = RAtom.lit '일')) = true by simp [hil], if_true,
            List.dropWhile_cons,
            show (decide (RAtom.lit ch = RAtom.wsp)) = false by simp,
            Bool.false_eq_true, if_false, Bool.and_eq_true, List.all_cons] at hgood
          exact hgood.2.2
        refine ⟨[], c :: p', rfl, rfl, by simp, ?_⟩
        simp only [List.all_cons, Bool.and_eq_true]
        exact ⟨hcd, groupFit_digits g' p' hfit' hall'⟩
  | .wsp :: g', p, hfit, hgood => by
    have hgood' : groupGoodB g' = true := by
      simp only [groupGoodB, List.filter_cons,
        show (!decide (RAtom.wsp = RAtom.lit '일')) = true by decide, if_true,
        List.dropWhile_cons,
        show (decide (RAtom.wsp = RAtom.wsp)) = true by decide, if_true] at hgood
      exact hgood
    simp only [groupFitB, Bool.or_eq_true] at hfit
    rcases hfit with hfit | hfit
    · exact groupFit_shape g' p hfit hgood'
    · cases p with
      | nil => simp at hfit
      | cons c p' =>
        simp only [Bool.and_eq_true] at hfit
        obtain ⟨⟨hcw, _⟩, hfit'⟩ := hfit
        obtain ⟨w, d, rfl, hw, hne, hd⟩ := groupFit_shape g' p' hfit' hgood'
        refine ⟨c :: w, d, rfl, ?_, hne, hd⟩
        simp only [List.all_cons, Bool.and_eq_true]
        exact ⟨hcw, hw⟩

theorem dropWhile_ws_append (w d : List Char) (hw : w.all isWsC = true) :
    (w ++ d).dropWhile isWsC = d.dropWhile isWsC := by
  induction w with
  | nil => rfl
  | cons c w' ih =>
    simp only [List.all_cons, Bool.and_eq_true] at hw
    simp only [List.cons_append, List.dropWhile_cons, hw.1, if_true]
    exact ih hw.2

theorem all_digit_dropWhile_ws (l : List Char) (h : l.all isDigitC = true) :
    l.dropWhile isWsC = l := by
  cases l with
  | nil => rfl
  | cons c t =>
    simp only [List.all_cons, Bool.and_eq_true] at h
    simp only [List.dropWhile_cons, digit_not_ws c h.1, Bool.false_eq_true, if_false]

theorem toIntPy_ws_digits (w d : List Char) (hw : w.all isWsC = true)
    (hne : d ≠ []) (hd : d.all isDigitC = true) : (toIntPy (w ++ d)).isSome = true := by
  obtain ⟨c, ds, rfl⟩ := List.exists_cons_of_ne_nil hne
  have hc : isDigitC c = true := by
    simp only [List.all_cons, Bool.and_eq_true] at hd
    exact hd.1
  have h1 : (w ++ c :: ds).dropWhile isWsC = c :: ds := by
    rw [dropWhile_ws_append w _ hw]
    exact all_digit_dropWhile_ws _ hd
  have h2 : (c :: ds).reverse.dropWhile isWsC = (c :: ds).reverse :=
    all_digit_dropWhile_ws _ (by rw [List.all_reverse]; exact hd)
  simp only [toIntPy, h1, h2, List.reverse_reverse]
  simp [digit_ne_plus c hc, digit_ne_minus c hc, hd]

theorem forall₂_mem_right {α β : Type} {R : α → β → Prop} :
    ∀ {l1 : List α} {l2 : List β}, List.Forall₂ R l1 l2 →
    ∀ b ∈ l2, ∃ a ∈ l1, R a b := by
  intro l1 l2 h
  induction h with
  | nil => intro b hb; cases hb
  | cons hab _ ih =>
    intro b hb
    rcases List.mem_cons.mp hb with hb | hb
    · subst hb
      exact ⟨_, by simp, hab⟩
    · obtain ⟨a, ha, hr⟩ := ih b hb
      exact ⟨a, by simp [ha], hr⟩

/-- The central shape fact: the `'/'`-split parts of a normalised match of
a well-formed, symbolically good atom sequence are all `int()`-acceptable. -/
theorem good_parts_of_fits (as : List RAtom) (m : List Char)
    (hok : as.all atomOkB = true) (hfit : fitsAB as m = true)
    (hgood : (symbParts as).all groupGoodB = true) :
    ∀ p ∈ splitSlash (normalizeToken m), (toIntPy p).isSome = true := by
  have hf := fits_symbParts as m hok hfit
  intro p hp
  obtain ⟨g, hg, hfitg⟩ := forall₂_mem_right hf p hp
  have hgg : groupGoodB g = true := by
    rw [List.all_eq_true] at hgood
    exact hgood g hg
  obtain ⟨w, d, rfl, hw, hne, hd⟩ := groupFit_shape g p hfitg hgg
  exact toIntPy_ws_digits w d hw hne hd

/-- All 36 candidate atom sequences are well-formed and symbolically
good. -/
theorem all_cands_good :
    all_cands.all (fun as => as.all atomOkB && (symbParts as).all groupGoodB) = true := by
  decide

theorem firstMatch_mem : ∀ (cands : List (List RAtom)) (cs m r : List Char),
    firstMatch cands cs = some (m, r) → ∃ as ∈ cands, matchAtoms as cs = some (m, r)
  | [], cs, m, r => by intro h; simp [firstMatch] at h
  | t :: ts, cs, m, r => by
    intro h
    simp only [firstMatch] at h
    split at h
    next m' r' hm =>
      split at h
      · simp only [Option.some_inj, Prod.mk.injEq] at h
        obtain ⟨h1, h2⟩ := h
        subst h1; subst h2
        exact ⟨t, by simp, hm⟩
      · obtain ⟨as, has, h2⟩ := firstMatch_mem ts cs m r h
        exact ⟨as, by simp [has], h2⟩
    next hm =>
      obtain ⟨as, has, h2⟩ := firstMatch_mem ts cs m r h
      exact ⟨as, by simp [has], h2⟩

theorem scanTokens_good : ∀ (fuel : Nat) (prev : Option Char) (cs : List Char)
    (m : List Char), m ∈ scanTokens fuel prev cs →
    ∃ as ∈ all_cands, fitsAB as m = true
  | 0, prev, cs, m => by intro h; simp [scanTokens] at h
  | f + 1, prev, [], m => by intro h; simp [scanTokens] at h
  | f + 1, prev, c :: rest, m => by
    intro h
    simp only [scanTokens] at h
    by_cases hb : boundaryBefore prev = true
    · rw [if_pos hb] at h
      rcases hfm : firstMatch all_cands (c :: rest) with _ | ⟨m0, r⟩
      · rw [hfm] at h
        exact scanTokens_good f (some c) rest m h
      · rw [hfm] at h
        rcases List.mem_cons.mp h with h | h
        · subst h
          obtain ⟨as, has, h2⟩ := firstMatch_mem all_cands (c :: rest) m r hfm
          exact ⟨as, has, matchAtoms_fits as (c :: rest) m r h2⟩
        · exact scanTokens_good f (some (m0.getLastD c)) r m h
    · rw [if_neg hb] at h
      exact scanTokens_good f (some c) rest m h

/-- Every token `re.findall` emits normalises and splits into
`int()`-acceptable parts. -/
theorem findall_parts_ok (title : List Char) :
    ∀ m ∈ regex_findall title, ∀ p ∈ splitSlash (normalizeToken m),
      (toIntPy p).isSome = true := by
  intro m hm
  obtain ⟨as, has, hfit⟩ := scanTokens_good (title.length + 1) none title m hm
  have h := all_cands_good
  rw [List.all_eq_true] at h
  have h2 := h as has
  rw [Bool.and_eq_true] at h2
  exact good_parts_of_fits as m h2.1 hfit h2.2

/-- On a token whose parts are all `int()`-acceptable, the parse never
raises. -/
theorem parse_token_ok (current_year : Int) (cs : List Char)
    (h : ∀ p ∈ splitSlash cs, (toIntPy p).isSome = true) :
    ∃ o, parse_date_token current_year cs = .val o := by
  unfold parse_date_token
  rcases hs : splitSlash cs with _ | ⟨p0, _ | ⟨p1, _ | ⟨p2, _ | ⟨p3, ps⟩⟩⟩⟩
  · exact ⟨none, rfl⟩
  · exact ⟨none, rfl⟩
  · rw [hs] at h
    obtain ⟨v0, h0⟩ := Option.isSome_iff_exists.mp (h p0 (by simp))
    obtain ⟨v1, h1⟩ := Option.isSome_iff_exists.mp (h p1 (by simp))
    simp only [h0, h1]
    exact ⟨_, rfl⟩
  · rw [hs] at h
    obtain ⟨v0, h0⟩ := Option.isSome_iff_exists.mp (h p0 (by simp))
    obtain ⟨v1, h1⟩ := Option.isSome_iff_exists.mp (h p1 (by simp))
    obtain ⟨v2, h2⟩ := Option.isSome_iff_exists.mp (h p2 (by simp))
    simp only [h0, h1, h2]
    split
    · exact ⟨_, rfl⟩
    · exact ⟨_, rfl⟩
  · exact ⟨none, rfl⟩

/-- The parse loop on all-acceptable tokens: no exception, and the result
is exactly the list of valid parses, in order. -/
theorem parseLoop_ok (current_year : Int) : ∀ ts : List (List Char),
    (∀ t ∈ ts, ∀ p ∈ splitSlash t, (toIntPy p).isSome = true) →
    parseLoop current_year ts = .val (ts.filterMap (date_of_token current_year))
  | [] => fun _ => rfl
  | t :: ts => fun h => by
    obtain ⟨o, ho⟩ := parse_token_ok current_year t (h t (by simp))
    have ih := parseLoop_ok current_year ts (fun u hu => h u (by simp [hu]))
    cases o with
    | none =>
      have hdt : date_of_token current_year t = none := by
        simp [date_of_token, ho]
      simp only [parseLoop, ho, ih, List.filterMap_cons, hdt]
    | some d =>
      have hdt : date_of_token current_year t = some d := by
        simp [date_of_token, ho]
      simp only [parseLoop, ho, ih, List.filterMap_cons, hdt]

theorem insertSorted_perm (x : Int) : ∀ l, (insertSorted x l).Perm (x :: l)
  | [] => List.Perm.refl _
  | y :: ys => by
    simp only [insertSorted]
    split
    · exact List.Perm.refl _
    · exact ((insertSorted_perm x ys).cons y).trans (List.Perm.swap x y ys)

theorem pySort_perm : ∀ l : List Int, (pySort l).Perm l
  | [] => List.Perm.refl _
  | x :: xs => (insertSorted_perm x (pySort xs)).trans ((pySort_perm xs).cons x)

theorem insertSorted_sorted (x : Int) :
    ∀ l, l.Sorted (· ≤ ·) → (insertSorted x l).Sorted (· ≤ ·)
  | [] => fun _ => by simp [insertSorted]
  | y :: ys => fun hs => by
    rw [List.sorted_cons] at hs
    simp only [insertSorted]
    split
    next hxy =>
      rw [List.sorted_cons]
      refine ⟨?_, by rw [List.sorted_cons]; exact hs⟩
      intro b hb
      rcases List.mem_cons.mp hb with hb | hb
      · omega
      · have := hs.1 b hb; omega
    next hxy =>
      rw [List.sorted_cons]
      constructor
      · intro b hb
        have hmem := (insertSorted_perm x ys).mem_iff.mp hb
        rcases List.mem_cons.mp hmem with hb' | hb'
        · omega
        · exact hs.1 b hb'
      · exact insertSorted_sorted x ys hs.2

theorem pySort_sorted : ∀ l : List Int, (pySort l).Sorted (· ≤ ·)
  | [] => by simp [pySort]
  | x :: xs => insertSorted_sorted x (pySort xs) (pySort_sorted xs)

/-- `sorted[0]` is the chronological minimum. -/
theorem pySort_head_min (l : List Int) (hne : l ≠ []) :
    ∃ mn ms, pySort l = mn :: ms ∧ mn ∈ l ∧ ∀ x ∈ l, mn ≤ x := by
  have hperm := pySort_perm l
  rcases hp : pySort l with _ | ⟨mn, ms⟩
  · rw [hp] at hperm
    exact absurd hperm.symm.eq_nil hne
  · have hsorted := pySort_sorted l
    rw [hp] at hsorted hperm
    refine ⟨mn, ms, rfl, hperm.mem_iff.mp (by simp), ?_⟩
    intro x hx
    have hx' : x ∈ mn :: ms := hperm.mem_iff.mpr hx
    rcases List.mem_cons.mp hx' with h | h
    · omega
    · rw [List.sorted_cons] at hsorted
      exact hsorted.1 x h

/-- C5.  Date extraction is total (no `ValueError` escapes: invalid
calendar dates are skipped); on a title with no valid parse the result is
`None`, and otherwise it is the last Monday on or before the
chronologically earliest validly parsed date. -/
theorem spec_C5_extraction_total_monday (current_year : Int) (title : List Char) :
    (extract_date_from_title current_year title = .val none ∧
     valid_parsed_dates current_year title = []) ∨
    (∃ d dm, extract_date_from_title current_year title = .val (some d) ∧
      dm ∈ valid_parsed_dates current_year title ∧
      (∀ x ∈ valid_parsed_dates current_year title, dm ≤ x) ∧
      d = get_last_monday dm ∧ weekday d = 0 ∧ d ≤ dm ∧ dm - d < 7) := by
  have htoks : ∀ t ∈ (regex_findall title).map normalizeToken,
      ∀ p ∈ splitSlash t, (toIntPy p).isSome = true := by
    intro t ht
    obtain ⟨m, hm, rfl⟩ := List.mem_map.mp ht
    exact findall_parts_ok title m hm
  have hloop := parseLoop_ok current_year _ htoks
  unfold extract_date_from_title
  by_cases hemp : ((regex_findall title).map normalizeToken).isEmpty = true
  · left
    rw [if_pos hemp]
    refine ⟨rfl, ?_⟩
    unfold valid_parsed_dates
    rw [List.isEmpty_iff.mp hemp]
    rfl
  · rw [if_neg hemp, hloop]
    have hvd : valid_parsed_dates current_year title =
        ((regex_findall title).map normalizeToken).filterMap
          (date_of_token current_year) := rfl
    rcases hL : ((regex_findall title).map normalizeToken).filterMap
        (date_of_token current_year) with _ | ⟨d0, ds⟩
    · left
      exact ⟨rfl, by rw [hvd, hL]⟩
    · right
      obtain ⟨mn, ms, hp, hmem, hmin⟩ := pySort_head_min (d0 :: ds) (by simp)
      refine ⟨get_last_monday mn, mn, ?_, ?_, ?_, rfl,
        get_last_monday_is_monday mn, get_last_monday_le mn, get_last_monday_gt mn⟩
      · simp only [hp]
      · rw [hvd, hL]; exact hmem
      · intro x hx
        rw [hvd, hL] at hx
        exact hmin x hx
